import Mathlib

/-!
# Verification of the tiktok-rag scraper/exporter

Shallow embedding of the ingestion path of the repository
(`src/scraper/export_graph.py`, `src/scraper/crawl.py`, `src/scraper/fetch.py`)
together with the parts of CPython's `urllib.parse` that those modules call.

Python strings are modelled as `List Char` (Lean `Char` is a Unicode scalar
value; Python strings containing lone surrogates crash the pipeline's UTF-8
encoding and are outside the model).  Python `int` is modelled as `Int`.
SHA-1 ids are modelled by their preimages (the tuples of hashed parts):
the code relies on SHA-1 being collision-free on the inputs it hashes, so
id equality coincides with preimage equality.
-/

namespace TiktokRag

abbrev Str := List Char

/-! ## `_split_text` (src/scraper/export_graph.py, lines 26-40)

The Python loop walks an index `start` through `text`; the fuel-indexed
`splitTextGo` walks the suffix `r = text[start:]` instead.  Each iteration
emits `text[start : min(start+max_chars, len)] = r.take max_chars`, stops
when `end >= len` (i.e. `r.length ≤ max_chars`), and otherwise continues at
`start = end - overlap`, i.e. on `r.drop (max_chars - overlap)`.  Since each
step consumes at least one character (`overlap ≤ max_chars - 1`), fuel
`text.length` always suffices; the fuel-exhausted branch is unreachable in
`split_text`. -/

def splitTextGo (m ov : Nat) : Nat → Str → List Str
  | 0, r => [r]
  | fuel + 1, r =>
      if r.length ≤ m then [r]
      else r.take m :: splitTextGo m ov fuel (r.drop (m - ov))

/-- `_split_text(text, max_chars, overlap_chars)`:
`overlap = max(0, min(overlap_chars, max_chars - 1))`, then the windowed
hard-cut loop. -/
def split_text (text : Str) (max_chars overlap_chars : Int) : List Str :=
  if max_chars ≤ 0 then [text]
  else if (text.length : Int) ≤ max_chars then [text]
  else
    splitTextGo max_chars.toNat (max 0 (min overlap_chars (max_chars - 1))).toNat
      text.length text

theorem splitTextGo_ne_nil (m ov fuel : Nat) (r : Str) :
    splitTextGo m ov fuel r ≠ [] := by
  cases fuel with
  | zero => simp [splitTextGo]
  | succ n =>
      by_cases h : r.length ≤ m <;> simp [splitTextGo, h]

theorem splitTextGo_head (m ov : Nat) :
    ∀ (fuel : Nat) (r : Str), r.length ≤ fuel + m →
      (splitTextGo m ov fuel r).head? = some (r.take m)
  | 0, r, h => by
      have ht : r.take m = r := List.take_of_length_le (by omega)
      simp [splitTextGo, ht]
  | fuel + 1, r, _ => by
      by_cases h : r.length ≤ m
      · have ht : r.take m = r := List.take_of_length_le h
        simp [splitTextGo, h, ht]
      · simp [splitTextGo, h]

theorem splitTextGo_length_le (m ov : Nat) (hmo : ov < m) :
    ∀ (fuel : Nat) (r : Str), r.length ≤ fuel →
      ∀ p ∈ splitTextGo m ov fuel r, p.length ≤ m
  | 0, r, hf, p, hp => by
      simp [splitTextGo] at hp
      subst hp; omega
  | fuel + 1, r, hf, p, hp => by
      by_cases h : r.length ≤ m
      · simp [splitTextGo, h] at hp; subst hp; exact h
      · simp only [splitTextGo, if_neg h, List.mem_cons] at hp
        rcases hp with hp | hp
        · subst hp; simp
        · exact splitTextGo_length_le m ov hmo fuel (r.drop (m - ov))
            (by simp; omega) p hp

theorem splitTextGo_reconstruct (m ov : Nat) (hmo : ov < m) :
    ∀ (fuel : Nat) (r : Str), r.length ≤ fuel →
      r.take ov ++ ((splitTextGo m ov fuel r).map (fun p => p.drop ov)).flatten = r
  | 0, r, hf => by
      have : r = [] := List.length_eq_zero.mp (by omega)
      subst this; simp [splitTextGo]
  | fuel + 1, r, hf => by
      by_cases h : r.length ≤ m
      · simp [splitTextGo, h]
      · have ih := splitTextGo_reconstruct m ov hmo fuel (r.drop (m - ov))
          (by simp; omega)
        have hx : ((splitTextGo m ov fuel (r.drop (m - ov))).map
            (fun p => p.drop ov)).flatten = (r.drop (m - ov)).drop ov := by
          have h2 := List.take_append_drop ov (r.drop (m - ov))
          exact List.append_cancel_left (ih.trans h2.symm)
        simp only [splitTextGo, if_neg h, List.map_cons, List.flatten_cons]
        rw [hx, List.drop_drop, List.drop_take]
        have e1 : m - ov + ov = m := by omega
        have e2 : r.drop m = (r.drop ov).drop (m - ov) := by
          rw [List.drop_drop]; congr 1; omega
        rw [e1, e2, List.take_append_drop, List.take_append_drop]

theorem splitTextGo_chain (m ov : Nat) (hmo : ov < m) :
    ∀ (fuel : Nat) (r : Str), r.length ≤ fuel →
      List.Chain' (fun a b => a.drop (a.length - ov) = b.take ov)
        (splitTextGo m ov fuel r)
  | 0, _, _ => by simp [splitTextGo]
  | fuel + 1, r, hf => by
      by_cases h : r.length ≤ m
      · simp [splitTextGo, h]
      · have hrec := splitTextGo_chain m ov hmo fuel (r.drop (m - ov))
          (by simp; omega)
        have hhead := splitTextGo_head m ov fuel (r.drop (m - ov))
          (by simp; omega)
        simp only [splitTextGo, if_neg h]
        cases hgo : splitTextGo m ov fuel (r.drop (m - ov)) with
        | nil => exact absurd hgo (splitTextGo_ne_nil m ov fuel _)
        | cons b t =>
            rw [hgo] at hrec hhead
            simp at hhead
            refine List.Chain'.cons ?_ hrec
            subst hhead
            have hlen : (r.take m).length = m := by simp; omega
            rw [hlen, List.drop_take, List.take_take,
              min_eq_left (le_of_lt hmo)]
            congr 1
            omega

/-! ### Claim C3 -/

/-- C3: for `max_chunk_chars > 0` and `overlap_chars ≥ 0`, every piece
produced by `_split_text` has length at most `max_chunk_chars`; adjacent
pieces share a boundary overlap of `ov ≤ overlap_chars` characters (the
last `ov` characters of each piece are the first `ov` characters of the
next); and the first piece followed by every later piece minus its leading
overlap concatenates back to the original text. -/
theorem C3_splitting_law (text : Str) (maxc ovc : Int)
    (hm : 0 < maxc) (ho : 0 ≤ ovc) :
    (∀ p ∈ split_text text maxc ovc, (p.length : Int) ≤ maxc) ∧
    (((max 0 (min ovc (maxc - 1))).toNat : Int) ≤ ovc) ∧
    List.Chain'
      (fun a b => a.drop (a.length - (max 0 (min ovc (maxc - 1))).toNat) =
        b.take (max 0 (min ovc (maxc - 1))).toNat)
      (split_text text maxc ovc) ∧
    (split_text text maxc ovc).headI ++
      (((split_text text maxc ovc).tail).map
        (fun p => p.drop (max 0 (min ovc (maxc - 1))).toNat)).flatten = text := by
  set ov := (max 0 (min ovc (maxc - 1))).toNat with hov
  have hbound : (ov : Int) ≤ ovc := by omega
  by_cases hshort : (text.length : Int) ≤ maxc
  · have : split_text text maxc ovc = [text] := by
      simp [split_text, hshort, not_le.mpr hm]
    rw [this]
    refine ⟨?_, hbound, by simp, by simp⟩
    intro p hp
    simp at hp; subst hp; exact hshort
  · have hsplit : split_text text maxc ovc =
        splitTextGo maxc.toNat ov text.length text := by
      simp [split_text, hshort, not_le.mpr hm]
    have hmo : ov < maxc.toNat := by omega
    have hlen := splitTextGo_length_le maxc.toNat ov hmo text.length text le_rfl
    have hrec := splitTextGo_reconstruct maxc.toNat ov hmo text.length text le_rfl
    have hch := splitTextGo_chain maxc.toNat ov hmo text.length text le_rfl
    have hhead := splitTextGo_head maxc.toNat ov text.length text (by omega)
    rw [hsplit]
    refine ⟨?_, hbound, hch, ?_⟩
    · intro p hp
      have := hlen p hp
      omega
    · cases hgo : splitTextGo maxc.toNat ov text.length text with
      | nil => exact absurd hgo (splitTextGo_ne_nil _ _ _ _)
      | cons a t =>
          rw [hgo] at hrec hhead
          simp at hhead
          subst hhead
          simp only [List.headI, List.tail_cons]
          simp only [List.map_cons, List.flatten_cons] at hrec
          have ha : (text.take maxc.toNat) =
              text.take ov ++ (text.take maxc.toNat).drop ov := by
            nth_rewrite 1 [← List.take_append_drop ov (text.take maxc.toNat)]
            rw [List.take_take, min_eq_left (le_of_lt hmo)]
          rw [ha, List.append_assoc]
          exact hrec

/-- Witness for C3 at `text = "abcdef"`, `max_chunk_chars = 4`,
`overlap_chars = 1`. -/
theorem C3_splitting_law_witness :
    (0 : Int) < 4 ∧ (0 : Int) ≤ 1 ∧
    (∀ p ∈ split_text ((r"abcdef").toList) 4 1, (p.length : Int) ≤ 4) := by
  refine ⟨by norm_num, by norm_num, ?_⟩
  exact (C3_splitting_law ((r"abcdef").toList) 4 1 (by norm_num) (by norm_num)).1

/-! ### Claim C10 -/

/-- C10: with `max_chunk_chars ≤ 0` the splitter returns the whole text as a
single piece — no splitting and no size bound. -/
theorem C10_nonpositive_max (text : Str) (maxc ovc : Int) (h : maxc ≤ 0) :
    split_text text maxc ovc = [text] := by
  simp [split_text, h]

/-- Witness for C10 at `text = "hello world"`, `max_chunk_chars = 0`. -/
theorem C10_nonpositive_max_witness :
    (0 : Int) ≤ 0 ∧ split_text ((r"hello world").toList) 0 200 =
      [(r"hello world").toList] :=
  ⟨le_rfl, C10_nonpositive_max ((r"hello world").toList) 0 200 le_rfl⟩

/-! ### Claim C4: split-point selection

`_split_text` cuts at the fixed positions `start + max_chars` — it has no
preference for sentence terminators or whitespace.  `noMidWordSplit`
formalises the claimed property: whenever the earlier of two adjacent
pieces contains a whitespace character (an available split point), the cut
between them does not fall inside a word (i.e. the character on one side
of the cut is whitespace). -/

def noMidWordSplit (text : Str) (maxc ovc : Int) : Prop :=
  ∀ p ∈ (split_text text maxc ovc).zip (split_text text maxc ovc).tail,
    (∃ c ∈ p.1, c.isWhitespace) →
      (p.1.getLast?.any (fun c => c.isWhitespace) = true ∨
       p.2.head?.any (fun c => c.isWhitespace) = true)

/-- C4 counterexample: splitting `"aa bb cc dd"` with `max_chunk_chars = 4`,
`overlap_chars = 0` produces `["aa b", "b cc", " dd"]`: the first cut falls
inside the word `"bb"` although a whitespace split point was available in
the chunk.  The claimed split-point preference order does not exist in the
code. -/
theorem C4_counterexample :
    ¬ noMidWordSplit ((r"aa bb cc dd").toList) 4 0 := by
  unfold noMidWordSplit
  decide

/-! ## `_split_chunks` (src/scraper/export_graph.py, lines 43-53)

The `order` counter starts at 0 once per call and is incremented for every
emitted piece across **all** input chunks of the page — it is not reset per
heading/section. -/

structure ChunkIn where
  heading : Str
  text : Str
  deriving DecidableEq

structure ChunkOut where
  heading : Str
  order : Nat
  text : Str
  deriving DecidableEq

/-- The inner `for text in _split_text(...)` loop: emit one `ChunkOut` per
piece, incrementing the running `order` counter. -/
def emitPieces (heading : Str) : List Str → Nat → List ChunkOut
  | [], _ => []
  | t :: ts, k => ⟨heading, k, t⟩ :: emitPieces heading ts (k + 1)

def splitChunksGo (maxc ovc : Int) : List ChunkIn → Nat → List ChunkOut
  | [], _ => []
  | c :: cs, k =>
      emitPieces c.heading (split_text c.text maxc ovc) k ++
        splitChunksGo maxc ovc cs (k + (split_text c.text maxc ovc).length)

/-- `_split_chunks(chunks, max_chunk_chars, overlap_chars)`. -/
def split_chunks (chunks : List ChunkIn) (max_chunk_chars overlap_chars : Int) :
    List ChunkOut :=
  splitChunksGo max_chunk_chars overlap_chars chunks 0

/-- The `order` values of the chunks belonging to the section (heading) `h`,
in output order. -/
def sectionOrders (out : List ChunkOut) (h : Str) : List Nat :=
  (out.filter fun c => c.heading == h).map (fun c => c.order)

/-! ### Claim C6 -/

/-- The claimed property: each chunk's `order` is its position within its
containing section, i.e. for every heading the orders are `0, 1, 2, ...`. -/
def orderIsPositionInSection (chunks : List ChunkIn) (maxc ovc : Int) : Prop :=
  ∀ h : Str,
    sectionOrders (split_chunks chunks maxc ovc) h =
      List.range (sectionOrders (split_chunks chunks maxc ovc) h).length

/-- C6 counterexample: a page with two one-piece sections `"a"` and `"b"`
gives the chunk of section `"b"` the order `1`, not its position `0` within
its section: the counter is global to the page. -/
theorem C6_counterexample :
    ¬ orderIsPositionInSection
        [⟨(r"a").toList, (r"x").toList⟩, ⟨(r"b").toList, (r"y").toList⟩]
        1000 200 :=
  fun hp => absurd (hp ((r"b").toList)) (by decide)

theorem emitPieces_map_order (h : Str) :
    ∀ (ps : List Str) (k : Nat),
      (emitPieces h ps k).map (fun c => c.order) = List.range' k ps.length
  | [], _ => rfl
  | _ :: ps, k => by
      simp [emitPieces, List.range'_succ, emitPieces_map_order h ps (k + 1)]

theorem emitPieces_length (h : Str) :
    ∀ (ps : List Str) (k : Nat), (emitPieces h ps k).length = ps.length
  | [], _ => rfl
  | _ :: ps, k => by simp [emitPieces, emitPieces_length h ps (k + 1)]

theorem range'_append_one (s m n : Nat) :
    List.range' s m ++ List.range' (s + m) n = List.range' s (m + n) := by
  have h := List.range'_append s m n 1
  simp only [one_mul] at h
  rw [Nat.add_comm m n]
  exact h

theorem splitChunksGo_map_order (maxc ovc : Int) :
    ∀ (cs : List ChunkIn) (k : Nat),
      (splitChunksGo maxc ovc cs k).map (fun c => c.order) =
        List.range' k (splitChunksGo maxc ovc cs k).length
  | [], _ => rfl
  | c :: cs, k => by
      simp only [splitChunksGo, List.map_append, List.length_append,
        emitPieces_map_order, emitPieces_length,
        splitChunksGo_map_order maxc ovc cs
          (k + (split_text c.text maxc ovc).length)]
      exact range'_append_one k (split_text c.text maxc ovc).length _

/-- C6 amended: each chunk's `order` is its position in the page-wide split
sequence (the counter is global to the page, not reset per section), so the
orders across the whole output are `0, 1, ..., n-1`; within each section the
orders are still strictly increasing, but not in general contiguous from 0. -/
theorem C6_amended (chunks : List ChunkIn) (maxc ovc : Int) :
    (split_chunks chunks maxc ovc).map (fun c => c.order) =
      List.range (split_chunks chunks maxc ovc).length ∧
    ∀ h : Str,
      List.Sorted (· < ·) (sectionOrders (split_chunks chunks maxc ovc) h) := by
  have h1 : (split_chunks chunks maxc ovc).map (fun c => c.order) =
      List.range (split_chunks chunks maxc ovc).length := by
    rw [List.range_eq_range']
    exact splitChunksGo_map_order maxc ovc chunks 0
  refine ⟨h1, fun h => ?_⟩
  have hsub : List.Sublist (sectionOrders (split_chunks chunks maxc ovc) h)
      ((split_chunks chunks maxc ovc).map (fun c => c.order)) :=
    List.Sublist.map _ (List.filter_sublist _)
  rw [h1] at hsub
  exact List.Pairwise.sublist hsub
    (List.pairwise_lt_range (split_chunks chunks maxc ovc).length)

/-! ## CPython 3.11 `urllib.parse` (the fragment used by the scraper)

Modelled from `urllib/parse.py` of CPython 3.11 (the interpreter the
repository targets): `urlsplit`/`urlparse` (including the removal of
tab/CR/LF bytes, scheme and netloc splitting, and `;params` splitting for
schemes in `uses_params`), `urlunsplit`/`urlunparse`, `parse_qsl` with
`keep_blank_values=True`, `urlencode` with `doseq=True` over string pairs,
and `quote_plus`/`unquote` with UTF-8 percent-coding.

Modelling notes kept throughout: `str.lower()` is modelled on ASCII (the
`A`-`Z` range), which is exact for every URL the scraper handles;
`_checknetloc`'s NFKC ValueError (raised only for pathological non-ASCII
netlocs) is modelled as a no-op, while the invalid-IPv6 ValueError is
exposed separately as `urlsplitRaises`; on inputs where CPython raises the
functions modelled here are a total extension. -/

def isAsciiAlpha (c : Char) : Bool :=
  ('a' ≤ c && c ≤ 'z') || ('A' ≤ c && c ≤ 'Z')

/-- `scheme_chars` from `urllib.parse`. -/
def isSchemeChar (c : Char) : Bool :=
  isAsciiAlpha c || ('0' ≤ c && c ≤ '9') || c == '+' || c == '-' || c == '.'

/-- ASCII `str.lower()`. -/
def pyLowerChar (c : Char) : Char :=
  if 'A' ≤ c ∧ c ≤ 'Z' then Char.ofNat (c.toNat + 32) else c

def pyLower (s : Str) : Str := s.map pyLowerChar

/-- `_UNSAFE_URL_BYTES_TO_REMOVE`: `urlsplit` deletes every tab, CR and LF. -/
def removeUnsafe (s : Str) : Str :=
  s.filter (fun c => c != Char.ofNat 9 && c != Char.ofNat 13 && c != Char.ofNat 10)

/-- `url.lstrip(_WHATWG_C0_CONTROL_OR_SPACE)`: `urlsplit` strips leading C0
control characters and spaces (code points `0x00`..`0x20`). -/
def lstripC0 (s : Str) : Str := s.dropWhile (fun c => c.toNat ≤ 32)

/-- `i = url.find(':'); if i > 0 and url[0] is an ASCII letter and all of
`url[:i]` is in `scheme_chars`: split the scheme off (lower-cased). -/
def splitScheme (url : Str) : Str × Str :=
  match url.findIdx? (fun c => c == ':') with
  | some i =>
      if 0 < i ∧ (url.take 1).all isAsciiAlpha ∧ (url.take i).all isSchemeChar
      then (pyLower (url.take i), url.drop (i + 1))
      else ([], url)
  | none => ([], url)

def isNetlocDelim (c : Char) : Bool := c == '/' || c == '?' || c == '#'

/-- `_splitnetloc(url, 2)`: netloc runs from index 2 to the first of
`/?#`. -/
def splitNetloc (url : Str) : Str × Str :=
  ((url.drop 2).takeWhile (fun c => !isNetlocDelim c),
   (url.drop 2).dropWhile (fun c => !isNetlocDelim c))

structure SplitResult where
  scheme : Str
  netloc : Str
  path : Str
  query : Str
  fragment : Str
  deriving DecidableEq

/-- Split `s` at the first occurrence of `c` (which must occur), dropping
the separator: `s.split(c, 1)`. -/
def splitOnce (c : Char) (s : Str) : Str × Str :=
  (s.takeWhile (fun x => x != c), (s.dropWhile (fun x => x != c)).drop 1)

/-- `urlsplit(url)` with default scheme `''` and `allow_fragments=True`. -/
def urlsplit (url0 : Str) : SplitResult :=
  let url1 := removeUnsafe (lstripC0 url0)
  let sp := splitScheme url1
  let scheme := sp.1
  let u2 := sp.2
  let np := if u2.take 2 = ['/', '/'] then splitNetloc u2 else ([], u2)
  let netloc := np.1
  let u3 := np.2
  let fp := if '#' ∈ u3 then splitOnce '#' u3 else (u3, [])
  let u4 := fp.1
  let fragment := fp.2
  let qp := if '?' ∈ u4 then splitOnce '?' u4 else (u4, [])
  ⟨scheme, netloc, qp.1, qp.2, fragment⟩

/-- The "Invalid IPv6 URL" `ValueError` of `urlsplit`: one bracket present
without the other in the netloc.  (CPython additionally validates the
contents of a balanced bracket pair via the `ipaddress` module; that
validation, like `_checknetloc`'s NFKC check, is not modelled — on such
inputs the model is a total extension of the raising CPython function.) -/
def urlsplitRaises (url : Str) : Bool :=
  let n := (urlsplit url).netloc
  (n.contains '[' && !n.contains ']') || (n.contains ']' && !n.contains '[')

/-- Index of the last occurrence of `c` in `s` (`s.rfind(c)`); only used
when `c` occurs. -/
def rfindIdx (c : Char) (s : Str) : Option Nat :=
  (s.reverse.findIdx? (fun x => x == c)).map (fun k => s.length - 1 - k)

/-- First index `i ≥ j` with `s[i] = c` (`s.find(c, j)`). -/
def findIdxFrom (c : Char) (s : Str) (j : Nat) : Option Nat :=
  ((s.drop j).findIdx? (fun x => x == c)).map (fun k => j + k)

/-- `_splitparams(url)`: split at the first `;` occurring after the last
`/` (or anywhere when there is no `/`). -/
def splitparams (url : Str) : Str × Str :=
  if '/' ∈ url then
    match rfindIdx '/' url with
    | some j =>
        match findIdxFrom ';' url j with
        | some i => (url.take i, url.drop (i + 1))
        | none => (url, [])
    | none => (url, [])
  else
    match url.findIdx? (fun x => x == ';') with
    | some i => (url.take i, url.drop (i + 1))
    | none => (url, [])

def uses_params : List Str :=
  [[], (r"ftp").toList, (r"hdl").toList, (r"prospero").toList,
   (r"http").toList, (r"imap").toList, (r"https").toList, (r"shttp").toList,
   (r"rtsp").toList, (r"rtsps").toList, (r"rtspu").toList, (r"sip").toList,
   (r"sips").toList, (r"mms").toList, (r"sftp").toList, (r"tel").toList]

def uses_netloc : List Str :=
  [[], (r"ftp").toList, (r"http").toList, (r"gopher").toList,
   (r"nntp").toList, (r"telnet").toList, (r"imap").toList, (r"wais").toList,
   (r"file").toList, (r"mms").toList, (r"https").toList, (r"shttp").toList,
   (r"snews").toList, (r"prospero").toList, (r"rtsp").toList,
   (r"rtsps").toList, (r"rtspu").toList, (r"rsync").toList, (r"svn").toList,
   (r"svn+ssh").toList, (r"sftp").toList, (r"nfs").toList, (r"git").toList,
   (r"git+ssh").toList, (r"ws").toList, (r"wss").toList]

structure ParseResult where
  scheme : Str
  netloc : Str
  path : Str
  params : Str
  query : Str
  fragment : Str
  deriving DecidableEq

/-- `urlparse(url)`: `urlsplit` plus `;params` splitting for schemes in
`uses_params`. -/
def urlparse (url : Str) : ParseResult :=
  let s := urlsplit url
  if s.scheme ∈ uses_params ∧ ';' ∈ s.path then
    let pp := splitparams s.path
    ⟨s.scheme, s.netloc, pp.1, pp.2, s.query, s.fragment⟩
  else
    ⟨s.scheme, s.netloc, s.path, [], s.query, s.fragment⟩

/-- `urlunsplit((scheme, netloc, url, query, fragment))`. -/
def urlunsplit (scheme netloc url query fragment : Str) : Str :=
  let url1 :=
    if netloc ≠ [] ∨ (scheme ≠ [] ∧ scheme ∈ uses_netloc ∧ url.take 2 ≠ ['/', '/'])
    then
      '/' :: '/' :: (netloc ++
        (if url ≠ [] ∧ url.take 1 ≠ ['/'] then '/' :: url else url))
    else url
  let url2 := if scheme ≠ [] then scheme ++ ':' :: url1 else url1
  let url3 := if query ≠ [] then url2 ++ '?' :: query else url2
  if fragment ≠ [] then url3 ++ '#' :: fragment else url3

/-- `urlunparse((scheme, netloc, url, params, query, fragment))`. -/
def urlunparse (scheme netloc url params query fragment : Str) : Str :=
  urlunsplit scheme netloc
    (if params ≠ [] then url ++ ';' :: params else url) query fragment

/-! ### Percent-coding: `quote_plus`, `unquote`, `urlencode`, `parse_qsl` -/

/-- UTF-8 encoding of one scalar value. -/
def utf8EncodeChar (c : Char) : List Nat :=
  let v := c.toNat
  if v < 0x80 then [v]
  else if v < 0x800 then [0xC0 + v / 64, 0x80 + v % 64]
  else if v < 0x10000 then
    [0xE0 + v / 4096, 0x80 + v / 64 % 64, 0x80 + v % 64]
  else
    [0xF0 + v / 262144, 0x80 + v / 4096 % 64, 0x80 + v / 64 % 64,
     0x80 + v % 64]

def utf8Encode (s : Str) : List Nat := (s.map utf8EncodeChar).flatten

/-- U+FFFD, the replacement character used by `errors='replace'`. -/
def replChar : Char := Char.ofNat 0xFFFD

/-- UTF-8 decoding with `errors='replace'` (maximal-subpart replacement, as
CPython does); only the valid-sequence branches are exercised by the
round-trip proofs. -/
def utf8DecodeReplace : List Nat → Str
  | [] => []
  | b :: rest =>
      if b < 0x80 then Char.ofNat b :: utf8DecodeReplace rest
      else if 0xC2 ≤ b ∧ b ≤ 0xDF then
        match rest with
        | [] => [replChar]
        | b2 :: r2 =>
            if 0x80 ≤ b2 ∧ b2 ≤ 0xBF then
              Char.ofNat ((b - 0xC0) * 64 + (b2 - 0x80)) :: utf8DecodeReplace r2
            else replChar :: utf8DecodeReplace (b2 :: r2)
      else if 0xE0 ≤ b ∧ b ≤ 0xEF then
        match rest with
        | [] => [replChar]
        | b2 :: r2 =>
            if (if b = 0xE0 then 0xA0 else 0x80) ≤ b2 ∧
               b2 ≤ (if b = 0xED then 0x9F else 0xBF) then
              match r2 with
              | [] => [replChar]
              | b3 :: r3 =>
                  if 0x80 ≤ b3 ∧ b3 ≤ 0xBF then
                    Char.ofNat ((b - 0xE0) * 4096 + (b2 - 0x80) * 64 + (b3 - 0x80)) ::
                      utf8DecodeReplace r3
                  else replChar :: utf8DecodeReplace (b3 :: r3)
            else replChar :: utf8DecodeReplace (b2 :: r2)
      else if 0xF0 ≤ b ∧ b ≤ 0xF4 then
        match rest with
        | [] => [replChar]
        | b2 :: r2 =>
            if (if b = 0xF0 then 0x90 else 0x80) ≤ b2 ∧
               b2 ≤ (if b = 0xF4 then 0x8F else 0xBF) then
              match r2 with
              | [] => [replChar]
              | b3 :: r3 =>
                  if 0x80 ≤ b3 ∧ b3 ≤ 0xBF then
                    match r3 with
                    | [] => [replChar]
                    | b4 :: r4 =>
                        if 0x80 ≤ b4 ∧ b4 ≤ 0xBF then
                          Char.ofNat ((b - 0xF0) * 262144 + (b2 - 0x80) * 4096 +
                            (b3 - 0x80) * 64 + (b4 - 0x80)) :: utf8DecodeReplace r4
                        else replChar :: utf8DecodeReplace (b4 :: r4)
                  else replChar :: utf8DecodeReplace (b3 :: r3)
            else replChar :: utf8DecodeReplace (b2 :: r2)
      else replChar :: utf8DecodeReplace rest

/-- `_ALWAYS_SAFE`: ASCII letters, digits, `_.-~`. -/
def isAlwaysSafeByte (b : Nat) : Bool :=
  (65 ≤ b && b ≤ 90) || (97 ≤ b && b ≤ 122) || (48 ≤ b && b ≤ 57) ||
  b == 95 || b == 46 || b == 45 || b == 126

def hexDigitUpper (n : Nat) : Char :=
  if n < 10 then Char.ofNat (48 + n) else Char.ofNat (55 + n)

/-- One byte of `quote_from_bytes`: safe bytes stay literal, the rest become
`%XX` (upper-case hex).  `safeSpace` is True for `quote(s, safe=' ')`. -/
def quoteByte (safeSpace : Bool) (b : Nat) : Str :=
  if isAlwaysSafeByte b || (safeSpace && b == 32) then [Char.ofNat b]
  else ['%', hexDigitUpper (b / 16), hexDigitUpper (b % 16)]

/-- `quote(s, safe)` restricted to the two safe-sets the scraper reaches
(`''` and `' '`). -/
def pyQuote (safeSpace : Bool) (s : Str) : Str :=
  ((utf8Encode s).map (quoteByte safeSpace)).flatten

/-- `quote_plus(s, safe='')`. -/
def quote_plus (s : Str) : Str :=
  if ' ' ∈ s then
    (pyQuote true s).map (fun c => if c == ' ' then '+' else c)
  else pyQuote false s

/-- `urlencode(params, doseq=True)` on string pairs. -/
def urlencode (params : List (Str × Str)) : Str :=
  List.intercalate ['&']
    (params.map (fun kv => quote_plus kv.1 ++ '=' :: quote_plus kv.2))

def hexVal (c : Char) : Option Nat :=
  if '0' ≤ c ∧ c ≤ '9' then some (c.toNat - 48)
  else if 'a' ≤ c ∧ c ≤ 'f' then some (c.toNat - 87)
  else if 'A' ≤ c ∧ c ≤ 'F' then some (c.toNat - 55)
  else none

/-- `unquote_to_bytes` on an ASCII run: `%XY` with two hex digits becomes a
byte, an invalid escape stays a literal `%`, every other character its own
byte. -/
def percentDecode : Str → List Nat
  | [] => []
  | '%' :: c1 :: c2 :: rest =>
      match hexVal c1, hexVal c2 with
      | some h, some l => (16 * h + l) :: percentDecode rest
      | _, _ => 37 :: percentDecode (c1 :: c2 :: rest)
  | '%' :: rest => 37 :: percentDecode rest
  | c :: rest => c.toNat :: percentDecode rest

def isAsciiChar (c : Char) : Bool := c.toNat < 128

/-- `unquote(s)` (`encoding='utf-8', errors='replace'`): the fast path
returns `s` unchanged when it has no `%`; otherwise `s` is split into
maximal ASCII / non-ASCII runs (`_asciire`) and each ASCII run is
percent-decoded and UTF-8-decoded. -/
def unquote (s : Str) : Str :=
  if '%' ∈ s then
    ((s.splitBy (fun a b => isAsciiChar a == isAsciiChar b)).map
      (fun g => if g.all isAsciiChar then utf8DecodeReplace (percentDecode g)
                else g)).flatten
  else s

/-- `s.split(sep)` for a one-character separator (empty pieces kept). -/
def splitSep (sep : Char) : Str → List Str
  | [] => [[]]
  | c :: rest =>
      let r := splitSep sep rest
      if c == sep then [] :: r
      else (c :: r.headI) :: r.tail

/-- `parse_qsl(qs, keep_blank_values=True)`. -/
def parse_qsl (qs : Str) : List (Str × Str) :=
  let query_args := if qs = [] then [] else splitSep '&' qs
  query_args.filterMap (fun nv =>
    if nv = [] then none
    else
      match nv.findIdx? (fun c => c == '=') with
      | some i =>
          some (unquote ((nv.take i).map (fun c => if c == '+' then ' ' else c)),
                unquote ((nv.drop (i + 1)).map (fun c => if c == '+' then ' ' else c)))
      | none =>
          some (unquote (nv.map (fun c => if c == '+' then ' ' else c)), []))

/-! ## `normalize_url` and URL helpers (src/scraper/crawl.py, lines 31-83) -/

/-- `re.sub(r"/{2,}", "/", path)`: squeeze every run of slashes to one. -/
def collapseSlashes : Str → Str
  | [] => []
  | [c] => [c]
  | c1 :: c2 :: rest =>
      if c1 == '/' && c2 == '/' then collapseSlashes (c2 :: rest)
      else c1 :: collapseSlashes (c2 :: rest)

/-- `path.rstrip("/")`. -/
def rstripSlashes (s : Str) : Str :=
  (s.reverse.dropWhile (fun c => c == '/')).reverse

/-- `normalize_url(url, keep_query_params)` (src/scraper/crawl.py, lines
31-48). -/
def normalize_url (url : Str) (keep_query_params : Option (List Str)) : Str :=
  let parsed := urlparse url
  let scheme := (r"https").toList
  let netloc := pyLower parsed.netloc
  let path0 := if parsed.path = [] then ['/'] else parsed.path
  let path1 := collapseSlashes path0
  let path :=
    if path1 ≠ ['/'] ∧ path1.getLast? = some '/' then rstripSlashes path1
    else path1
  let query :=
    match keep_query_params with
    | none => []
    | some keeps =>
        if keeps = [] then []
        else
          let params := (parse_qsl parsed.query).filter
            (fun kv => keeps.contains kv.1)
          if params ≠ [] then urlencode params else []
  urlunparse scheme netloc path [] query []

/-- `_extract_query_defaults(url, keep_query_params)` (lines 51-60): the
first value of each kept key in the seed URL's query, as an insertion-order
dict (assoc list, first occurrence wins). -/
def extract_query_defaults (url : Str) (keep_query_params : Option (List Str)) :
    List (Str × Str) :=
  match keep_query_params with
  | none => []
  | some keeps =>
      if keeps = [] then []
      else
        ((parse_qsl (urlparse url).query).filter
            (fun kv => keeps.contains kv.1)).foldl
          (fun acc kv => if acc.any (fun e => e.1 == kv.1) then acc
                         else acc ++ [kv]) []

/-- `_apply_default_query_params(url, defaults)` (lines 63-78): append each
default whose key is absent from the URL's query; unchanged when nothing is
added. -/
def apply_default_query_params (url : Str) (defaults : List (Str × Str)) : Str :=
  if defaults = [] then url
  else
    let parsed := urlparse url
    let existing := parse_qsl parsed.query
    let updated := existing ++ defaults.filter
      (fun d => !existing.any (fun e => e.1 == d.1))
    if updated = existing then url
    else
      urlunparse parsed.scheme parsed.netloc parsed.path parsed.params
        (urlencode updated) parsed.fragment

/-- `_is_target_path(url, prefixes)` (lines 81-83). -/
def is_target_path (url : Str) (prefixes : List Str) : Bool :=
  let path := if (urlparse url).path = [] then ['/'] else (urlparse url).path
  prefixes.any (fun p => p.isPrefixOf path)

/-- `_infer_locale(url)` (src/scraper/export_graph.py, lines 56-63). -/
def infer_locale (url : Str) : Str :=
  let path := (urlparse url).path
  let pre := (r"/community-guidelines/").toList
  if pre.isPrefixOf path then
    let rest := (path.drop pre.length).dropWhile (fun c => c == '/')
    if rest ≠ [] then rest.takeWhile (fun c => c != '/')
    else (r"unknown").toList
  else (r"unknown").toList

/-! ## `export_graph` (src/scraper/export_graph.py, lines 82-287)

`_sha1_id(*parts)` is modelled by the tuple of hashed parts: the code
relies on SHA-1 being collision-free on its inputs, so id equality is
preimage equality.  A CHUNK id hashes `str(order)` and `sha1(text)`; both
are injective images, so the preimages `order` and `text` are stored.
The two JSONL files are modelled as the lists of records they hold (JSON
serialisation of well-formed records is faithful); `export_graph` takes the
existing file contents as inputs and returns the final in-memory state,
whose `nodes`/`edges` lists are exactly what is written back in write mode
(`append=False`). -/

inductive NodeType
  | PAGE
  | SECTION
  | CHUNK
  deriving DecidableEq

inductive EdgeType
  | PAGE_CONTAINS_SECTION
  | SECTION_CONTAINS_CHUNK
  | NEXT_CHUNK
  | PAGE_LINKS_TO_PAGE
  deriving DecidableEq

/-- Preimages of `_sha1_id`: `("PAGE", url)`, `("SECTION", url, heading)`,
`("CHUNK", url, heading, str(order), sha1(text))`. -/
inductive NodeId
  | page (url : Str)
  | section (url heading : Str)
  | chunk (url heading : Str) (order : Nat) (text : Str)
  deriving DecidableEq

/-- A node record as written to `nodes.jsonl` (one constructor per
discriminator value of the `type` field). -/
inductive Node
  | page (id : NodeId) (url title locale source : Str)
      (retrieved_at : Option Str) (platforms : Option (List Str))
  | section (id : NodeId) (url heading source : Str)
      (retrieved_at : Option Str) (platforms : Option (List Str))
  | chunk (id : NodeId) (url heading : Str) (order : Nat)
      (text page_title source : Str)
      (retrieved_at : Option Str) (platforms : Option (List Str))
  deriving DecidableEq

def Node.id : Node → NodeId
  | .page i _ _ _ _ _ _ => i
  | .section i _ _ _ _ _ => i
  | .chunk i _ _ _ _ _ _ _ _ => i

def Node.nodeType : Node → NodeType
  | .page .. => .PAGE
  | .section .. => .SECTION
  | .chunk .. => .CHUNK

/-- An edge record; its id `_sha1_id(type, source, target)` is determined by
the record, so the record doubles as its own dedup key. -/
structure Edge where
  edgeType : EdgeType
  source : NodeId
  target : NodeId
  deriving DecidableEq

/-- `crawl.PageData` (src/scraper/crawl.py, lines 14-22). -/
structure PageData where
  url : Str
  final_url : Str
  title : Str
  chunks : List ChunkIn
  out_links : List Str
  source : Str
  platforms : Option (List Str)
  deriving DecidableEq

/-- The mutable export state: the `nodes`/`edges` output lists and the
`node_ids`/`edge_ids` dedup sets. -/
structure ExportSt where
  nodes : List Node
  node_ids : List NodeId
  edges : List Edge
  edge_ids : List Edge
  deriving DecidableEq

def emptySt : ExportSt := ⟨[], [], [], []⟩

/-- `if node_id not in node_ids: nodes.append(node); node_ids.add(node_id)`
(also the body of the merge-loading loop). -/
def addNode (st : ExportSt) (n : Node) : ExportSt :=
  if n.id ∈ st.node_ids then st
  else { st with nodes := st.nodes ++ [n], node_ids := n.id :: st.node_ids }

def addEdge (st : ExportSt) (e : Edge) : ExportSt :=
  if e ∈ st.edge_ids then st
  else { st with edges := st.edges ++ [e], edge_ids := e :: st.edge_ids }

/-- The body of the `for chunk in page_chunks` loop: the accumulator carries
the state, the `section_ids` insertion-order dict and `prev_chunk_id`. -/
def processChunk (page : PageData) (retrieved_at : Option Str)
    (acc : ExportSt × List (Str × NodeId) × Option NodeId) (c : ChunkOut) :
    ExportSt × List (Str × NodeId) × Option NodeId :=
  let st := acc.1
  let section_ids := acc.2.1
  let prev := acc.2.2
  let found := section_ids.lookup c.heading
  let section_id :=
    match found with
    | some sid => sid
    | none => NodeId.section page.url c.heading
  let st :=
    match found with
    | some _ => st
    | none =>
        let st := addNode st (.section section_id page.url c.heading
          page.source retrieved_at page.platforms)
        addEdge st ⟨.PAGE_CONTAINS_SECTION, .page page.url, section_id⟩
  let section_ids :=
    match found with
    | some _ => section_ids
    | none => section_ids ++ [(c.heading, section_id)]
  let chunk_id := NodeId.chunk page.url c.heading c.order c.text
  let st := addNode st (.chunk chunk_id page.url c.heading c.order c.text
    page.title page.source retrieved_at page.platforms)
  let st := addEdge st ⟨.SECTION_CONTAINS_CHUNK, section_id, chunk_id⟩
  let st :=
    match prev with
    | some p => addEdge st ⟨.NEXT_CHUNK, p, chunk_id⟩
    | none => st
  (st, section_ids, some chunk_id)

/-- One iteration of the `for pi, page in enumerate(pages)` loop. -/
def processPage (max_chunk_chars overlap_chars : Int) (retrieved_at : Option Str)
    (st : ExportSt) (page : PageData) : ExportSt :=
  let st := addNode st (.page (.page page.url) page.url page.title
    (infer_locale page.url) page.source retrieved_at page.platforms)
  ((split_chunks page.chunks max_chunk_chars overlap_chars).foldl
    (processChunk page retrieved_at) (st, [], none)).1

/-- The `PAGE_LINKS_TO_PAGE` pass: a link produces an edge exactly when it
is the url of some exported page (`url_to_page_id.get(link)`). -/
def processLinks (pages : List PageData) (st : ExportSt) : ExportSt :=
  pages.foldl (fun st page =>
    page.out_links.foldl (fun st link =>
      if pages.any (fun q => q.url == link) then
        addEdge st ⟨.PAGE_LINKS_TO_PAGE, .page page.url, .page link⟩
      else st) st) st

/-- `export_graph(pages, ...)`: returns the final state; `st.nodes` and
`st.edges` are the record lists written out (overwriting the files when
`append=False`), and the returned counts are their lengths. -/
def export_graph (pages : List PageData)
    (existingNodes : List Node) (existingEdges : List Edge)
    (max_chunk_chars overlap_chars : Int) (retrieved_at : Option Str)
    (merge_existing append : Bool) : ExportSt :=
  let st0 :=
    if merge_existing && !append then
      existingEdges.foldl addEdge (existingNodes.foldl addNode emptySt)
    else emptySt
  let st1 := pages.foldl (processPage max_chunk_chars overlap_chars retrieved_at) st0
  processLinks pages st1

def nodeCount (st : ExportSt) (t : NodeType) : Nat :=
  (st.nodes.filter (fun n => n.nodeType == t)).length

def edgeCount (st : ExportSt) (t : EdgeType) : Nat :=
  (st.edges.filter (fun e => e.edgeType == t)).length

/-! ### Merge-mode idempotence machinery (claim C2)

Every mutation of the export state is a membership-guarded add, so a state
whose dedup sets already contain everything a run would add absorbs that
run without change.  `IdsLe s t` says `t`'s dedup sets contain `s`'s;
`Replayable f` packages growth plus the absorption property, and is closed
under composition and folding. -/

def IdsLe (s t : ExportSt) : Prop :=
  s.node_ids ⊆ t.node_ids ∧ s.edge_ids ⊆ t.edge_ids

theorem IdsLe.refl (s : ExportSt) : IdsLe s s :=
  ⟨List.Subset.refl _, List.Subset.refl _⟩

theorem IdsLe.trans {a b c : ExportSt} (h1 : IdsLe a b) (h2 : IdsLe b c) :
    IdsLe a c :=
  ⟨h1.1.trans h2.1, h1.2.trans h2.2⟩

def Replayable (f : ExportSt → ExportSt) : Prop :=
  (∀ st, IdsLe st (f st)) ∧ (∀ st T, IdsLe (f st) T → f T = T)

theorem replayable_id : Replayable (fun st => st) :=
  ⟨fun st => IdsLe.refl st, fun _ _ _ => rfl⟩

theorem addNode_idsLe (st : ExportSt) (n : Node) : IdsLe st (addNode st n) := by
  unfold addNode
  by_cases h : n.id ∈ st.node_ids <;>
    simp [h, IdsLe, List.subset_cons_of_subset, List.Subset.refl]

theorem addEdge_idsLe (st : ExportSt) (e : Edge) : IdsLe st (addEdge st e) := by
  unfold addEdge
  by_cases h : e ∈ st.edge_ids <;>
    simp [h, IdsLe, List.subset_cons_of_subset, List.Subset.refl]

theorem addNode_mem_id (st : ExportSt) (n : Node) :
    n.id ∈ (addNode st n).node_ids := by
  unfold addNode
  by_cases h : n.id ∈ st.node_ids <;> simp [h]

theorem addEdge_mem_id (st : ExportSt) (e : Edge) :
    e ∈ (addEdge st e).edge_ids := by
  unfold addEdge
  by_cases h : e ∈ st.edge_ids <;> simp [h]

theorem addNode_noop (st : ExportSt) (n : Node) (h : n.id ∈ st.node_ids) :
    addNode st n = st := by
  simp [addNode, h]

theorem addEdge_noop (st : ExportSt) (e : Edge) (h : e ∈ st.edge_ids) :
    addEdge st e = st := by
  simp [addEdge, h]

theorem replayable_addNode (n : Node) : Replayable (fun st => addNode st n) := by
  refine ⟨fun st => addNode_idsLe st n, fun st T h => ?_⟩
  exact addNode_noop T n (h.1 (addNode_mem_id st n))

theorem replayable_addEdge (e : Edge) : Replayable (fun st => addEdge st e) := by
  refine ⟨fun st => addEdge_idsLe st e, fun st T h => ?_⟩
  exact addEdge_noop T e (h.2 (addEdge_mem_id st e))

theorem replayable_comp {f g : ExportSt → ExportSt}
    (hf : Replayable f) (hg : Replayable g) :
    Replayable (fun st => g (f st)) := by
  refine ⟨fun st => (hf.1 st).trans (hg.1 (f st)), fun st T h => ?_⟩
  have hfT : f T = T :=
    hf.2 st T ((hg.1 (f st)).trans h)
  show g (f T) = T
  rw [hfT]
  exact hg.2 (f st) T h

theorem replayable_ite (P : Prop) [Decidable P] {f g : ExportSt → ExportSt}
    (hf : Replayable f) (hg : Replayable g) :
    Replayable (fun st => if P then f st else g st) := by
  by_cases h : P <;> simp [h]
  · exact hf
  · exact hg

theorem replayable_foldl {α : Type} (f : ExportSt → α → ExportSt)
    (hf : ∀ a, Replayable (fun st => f st a)) :
    ∀ l : List α, Replayable (fun st => l.foldl f st)
  | [] => replayable_id
  | a :: l => by
      have h := replayable_comp (hf a) (replayable_foldl f hf l)
      simpa using h

theorem replayable_comp_addNode {f : ExportSt → ExportSt} (hf : Replayable f)
    (n : Node) : Replayable (fun st => addNode (f st) n) :=
  replayable_comp hf (replayable_addNode n)

theorem replayable_comp_addEdge {f : ExportSt → ExportSt} (hf : Replayable f)
    (e : Edge) : Replayable (fun st => addEdge (f st) e) :=
  replayable_comp hf (replayable_addEdge e)

theorem processChunk_fst_replayable (page : PageData) (ra : Option Str)
    (aux : List (Str × NodeId) × Option NodeId) (c : ChunkOut) :
    Replayable (fun st => (processChunk page ra (st, aux.1, aux.2) c).1) := by
  obtain ⟨sids, prev⟩ := aux
  simp only [processChunk]
  cases hf : sids.lookup c.heading <;> cases prev <;> simp only [hf]
  · exact replayable_comp_addEdge (replayable_comp_addNode
      (replayable_comp_addEdge (replayable_comp_addNode replayable_id _) _) _) _
  · exact replayable_comp_addEdge (replayable_comp_addEdge
      (replayable_comp_addNode (replayable_comp_addEdge
        (replayable_comp_addNode replayable_id _) _) _) _) _
  · exact replayable_comp_addEdge (replayable_comp_addNode replayable_id _) _
  · exact replayable_comp_addEdge (replayable_comp_addEdge
      (replayable_comp_addNode replayable_id _) _) _

theorem processChunk_snd_indep (page : PageData) (ra : Option Str)
    (aux : List (Str × NodeId) × Option NodeId) (c : ChunkOut)
    (st st' : ExportSt) :
    (processChunk page ra (st, aux.1, aux.2) c).2 =
      (processChunk page ra (st', aux.1, aux.2) c).2 := by
  obtain ⟨sids, prev⟩ := aux
  simp only [processChunk]

theorem chunksFold_fst_replayable (page : PageData) (ra : Option Str) :
    ∀ (cs : List ChunkOut) (aux : List (Str × NodeId) × Option NodeId),
      Replayable (fun st => (cs.foldl (processChunk page ra) (st, aux.1, aux.2)).1)
  | [], _ => replayable_id
  | c :: cs, aux => by
      have pcf := processChunk_fst_replayable page ra aux c
      constructor
      · intro st
        rcases hx : processChunk page ra (st, aux.1, aux.2) c with ⟨s1, sids1, prev1⟩
        have hmono1 : IdsLe st s1 := by
          have h0 := pcf.1 st
          simp only at h0
          rwa [hx] at h0
        have ih := (chunksFold_fst_replayable page ra cs (sids1, prev1)).1 s1
        simp only [List.foldl_cons, hx]
        exact hmono1.trans ih
      · intro st T h
        rcases hx : processChunk page ra (st, aux.1, aux.2) c with ⟨s1, sids1, prev1⟩
        simp only [List.foldl_cons, hx] at h
        have hmono : IdsLe s1 ((cs.foldl (processChunk page ra) (s1, sids1, prev1)).1) :=
          (chunksFold_fst_replayable page ra cs (sids1, prev1)).1 s1
        have hs1T : IdsLe s1 T := hmono.trans h
        have ht1 : (processChunk page ra (T, aux.1, aux.2) c).1 = T := by
          apply pcf.2 st T
          simp only
          rw [hx]
          exact hs1T
        have hsnd : (processChunk page ra (T, aux.1, aux.2) c).2 = (sids1, prev1) := by
          rw [processChunk_snd_indep page ra aux c T st, hx]
        simp only [List.foldl_cons]
        rcases hxT : processChunk page ra (T, aux.1, aux.2) c with ⟨t1, sidsT, prevT⟩
        rw [hxT] at ht1 hsnd
        simp only at ht1 hsnd
        rw [Prod.mk.injEq] at hsnd
        obtain ⟨hs, hp⟩ := hsnd
        rw [ht1, hs, hp]
        exact (chunksFold_fst_replayable page ra cs (sids1, prev1)).2 s1 T h

theorem processPage_replayable (m o : Int) (ra : Option Str) (page : PageData) :
    Replayable (fun st => processPage m o ra st page) := by
  simp only [processPage]
  exact replayable_comp (replayable_addNode _)
    (chunksFold_fst_replayable page ra (split_chunks page.chunks m o) ([], none))

theorem processLinks_replayable (pages : List PageData) :
    Replayable (fun st => processLinks pages st) := by
  simp only [processLinks]
  apply replayable_foldl
  intro page
  apply replayable_foldl
  intro link
  exact replayable_ite _ (replayable_addEdge _) replayable_id

/-! ### Well-formedness of the state and the load-identity -/

/-- The invariant of the export state: the dedup sets hold exactly the keys
of the output lists (in reverse insertion order), which are duplicate-free. -/
def WFst (st : ExportSt) : Prop :=
  st.node_ids = (st.nodes.map Node.id).reverse ∧
  (st.nodes.map Node.id).Nodup ∧
  st.edge_ids = st.edges.reverse ∧
  st.edges.Nodup

theorem WFst_empty : WFst emptySt := by
  simp [WFst, emptySt]

def PreservesWF (f : ExportSt → ExportSt) : Prop :=
  ∀ st, WFst st → WFst (f st)

theorem preservesWF_id : PreservesWF (fun st => st) := fun _ h => h

theorem addNode_WF (st : ExportSt) (n : Node) (h : WFst st) :
    WFst (addNode st n) := by
  obtain ⟨h1, h2, h3, h4⟩ := h
  by_cases hm : n.id ∈ st.node_ids
  · rw [addNode_noop st n hm]
    exact ⟨h1, h2, h3, h4⟩
  · have hm2 : n.id ∉ st.nodes.map Node.id := by
      intro hx
      exact hm (by rw [h1, List.mem_reverse]; exact hx)
    simp only [addNode, if_neg hm]
    refine ⟨?_, ?_, h3, h4⟩
    · simp [h1]
    · simp [List.nodup_append, h2, hm2]

theorem addEdge_WF (st : ExportSt) (e : Edge) (h : WFst st) :
    WFst (addEdge st e) := by
  obtain ⟨h1, h2, h3, h4⟩ := h
  by_cases hm : e ∈ st.edge_ids
  · rw [addEdge_noop st e hm]
    exact ⟨h1, h2, h3, h4⟩
  · have hm2 : e ∉ st.edges := by
      intro hx
      exact hm (by rw [h3, List.mem_reverse]; exact hx)
    simp only [addEdge, if_neg hm]
    refine ⟨h1, h2, ?_, ?_⟩
    · simp [h3]
    · simp [List.nodup_append, h4, hm2]

theorem preservesWF_comp_addNode {f : ExportSt → ExportSt}
    (hf : PreservesWF f) (n : Node) :
    PreservesWF (fun st => addNode (f st) n) :=
  fun st h => addNode_WF (f st) n (hf st h)

theorem preservesWF_comp_addEdge {f : ExportSt → ExportSt}
    (hf : PreservesWF f) (e : Edge) :
    PreservesWF (fun st => addEdge (f st) e) :=
  fun st h => addEdge_WF (f st) e (hf st h)

theorem preservesWF_comp {f g : ExportSt → ExportSt}
    (hf : PreservesWF f) (hg : PreservesWF g) :
    PreservesWF (fun st => g (f st)) :=
  fun st h => hg (f st) (hf st h)

theorem preservesWF_ite (P : Prop) [Decidable P] {f g : ExportSt → ExportSt}
    (hf : PreservesWF f) (hg : PreservesWF g) :
    PreservesWF (fun st => if P then f st else g st) := by
  by_cases h : P <;> simp [h]
  · exact hf
  · exact hg

theorem preservesWF_foldl {α : Type} (f : ExportSt → α → ExportSt)
    (hf : ∀ a, PreservesWF (fun st => f st a)) :
    ∀ l : List α, PreservesWF (fun st => l.foldl f st)
  | [] => preservesWF_id
  | a :: l => by
      have h := preservesWF_comp (hf a) (preservesWF_foldl f hf l)
      simpa using h

theorem processChunk_fst_preservesWF (page : PageData) (ra : Option Str)
    (aux : List (Str × NodeId) × Option NodeId) (c : ChunkOut) :
    PreservesWF (fun st => (processChunk page ra (st, aux.1, aux.2) c).1) := by
  obtain ⟨sids, prev⟩ := aux
  simp only [processChunk]
  cases hf : sids.lookup c.heading <;> cases prev <;> simp only [hf]
  · exact preservesWF_comp_addEdge (preservesWF_comp_addNode
      (preservesWF_comp_addEdge (preservesWF_comp_addNode preservesWF_id _) _) _) _
  · exact preservesWF_comp_addEdge (preservesWF_comp_addEdge
      (preservesWF_comp_addNode (preservesWF_comp_addEdge
        (preservesWF_comp_addNode preservesWF_id _) _) _) _) _
  · exact preservesWF_comp_addEdge (preservesWF_comp_addNode preservesWF_id _) _
  · exact preservesWF_comp_addEdge (preservesWF_comp_addEdge
      (preservesWF_comp_addNode preservesWF_id _) _) _

theorem chunksFold_fst_preservesWF (page : PageData) (ra : Option Str) :
    ∀ (cs : List ChunkOut) (aux : List (Str × NodeId) × Option NodeId),
      PreservesWF (fun st => (cs.foldl (processChunk page ra) (st, aux.1, aux.2)).1)
  | [], _ => preservesWF_id
  | c :: cs, aux => by
      intro st hwf
      rcases hx : processChunk page ra (st, aux.1, aux.2) c with ⟨s1, sids1, prev1⟩
      have hwf1 : WFst s1 := by
        have h0 := processChunk_fst_preservesWF page ra aux c st hwf
        simp only at h0
        rwa [hx] at h0
      simp only [List.foldl_cons, hx]
      exact chunksFold_fst_preservesWF page ra cs (sids1, prev1) s1 hwf1

theorem processPage_preservesWF (m o : Int) (ra : Option Str) (page : PageData) :
    PreservesWF (fun st => processPage m o ra st page) := by
  simp only [processPage]
  exact preservesWF_comp (fun st h => addNode_WF st _ h)
    (chunksFold_fst_preservesWF page ra (split_chunks page.chunks m o) ([], none))

theorem processLinks_preservesWF (pages : List PageData) :
    PreservesWF (fun st => processLinks pages st) := by
  simp only [processLinks]
  apply preservesWF_foldl
  intro page
  apply preservesWF_foldl
  intro link
  exact preservesWF_ite _ (fun st h => addEdge_WF st _ h) preservesWF_id

/-- Loading a duplicate-free node list into an empty state reproduces it
verbatim. -/
theorem foldl_addNode_load :
    ∀ (ns : List Node) (st : ExportSt),
      st.node_ids = (st.nodes.map Node.id).reverse →
      ((st.nodes ++ ns).map Node.id).Nodup →
      ns.foldl addNode st =
        { st with nodes := st.nodes ++ ns,
                  node_ids := ((st.nodes ++ ns).map Node.id).reverse }
  | [], st, h1, h2 => by
      rw [List.foldl_nil, List.append_nil, ← h1]
  | n :: ns, st, h1, h2 => by
      have hm : n.id ∉ st.node_ids := by
        rw [h1, List.mem_reverse]
        intro hx
        rw [List.map_append, List.map_cons] at h2
        have hd := (List.nodup_append.mp h2).2.2
        exact hd hx (by simp)
      have hstep : addNode st n =
          { st with nodes := st.nodes ++ [n], node_ids := n.id :: st.node_ids } := by
        simp [addNode, hm]
      simp only [List.foldl_cons, hstep]
      rw [foldl_addNode_load ns _ (by simp [h1]) (by simpa [List.append_assoc] using h2)]
      simp [List.append_assoc]

/-- Loading a duplicate-free edge list on top of a loaded state reproduces
it verbatim (and leaves the node fields untouched). -/
theorem foldl_addEdge_load :
    ∀ (es : List Edge) (st : ExportSt),
      st.edge_ids = st.edges.reverse →
      (st.edges ++ es).Nodup →
      es.foldl addEdge st =
        { st with edges := st.edges ++ es,
                  edge_ids := (st.edges ++ es).reverse }
  | [], st, h1, h2 => by
      rw [List.foldl_nil, List.append_nil, ← h1]
  | e :: es, st, h1, h2 => by
      have hm : e ∉ st.edge_ids := by
        rw [h1, List.mem_reverse]
        intro hx
        have hd := (List.nodup_append.mp h2).2.2
        exact hd hx (by simp)
      have hstep : addEdge st e =
          { st with edges := st.edges ++ [e], edge_ids := e :: st.edge_ids } := by
        simp [addEdge, hm]
      simp only [List.foldl_cons, hstep]
      rw [foldl_addEdge_load es _ (by simp [h1]) (by simpa [List.append_assoc] using h2)]
      simp [List.append_assoc]

/-- Re-loading a well-formed state's output files reproduces the state. -/
theorem load_eq_self (st : ExportSt) (h : WFst st) :
    st.edges.foldl addEdge (st.nodes.foldl addNode emptySt) = st := by
  obtain ⟨h1, h2, h3, h4⟩ := h
  rw [foldl_addNode_load st.nodes emptySt (by simp [emptySt])
    (by simpa [emptySt] using h2)]
  rw [foldl_addEdge_load st.edges _ (by simp [emptySt]) (by simpa [emptySt] using h4)]
  cases st
  simp_all [emptySt]

theorem export_graph_WF (pages : List PageData) (eN : List Node) (eE : List Edge)
    (maxc ovc : Int) (ra : Option Str) (me ap : Bool) :
    WFst (export_graph pages eN eE maxc ovc ra me ap) := by
  unfold export_graph
  apply processLinks_preservesWF
  apply preservesWF_foldl _ (fun p => processPage_preservesWF maxc ovc ra p)
  by_cases hme : (me && !ap) = true
  · rw [if_pos hme]
    apply preservesWF_foldl _ (fun e st h => addEdge_WF st e h)
    apply preservesWF_foldl _ (fun n st h => addNode_WF st n h)
    exact WFst_empty
  · rw [if_neg hme]
    exact WFst_empty

/-! ### Claim C2 -/

/-- C2: merge-mode idempotence.  Exporting the same page list a second time
in merge mode (`merge_existing=True, append=False`) over the files the
first run wrote reproduces the first run's state exactly — in particular
the node and edge counts are unchanged, so the second run adds no records.
(Holds for any prior contents of the output directory fed to the first
run.) -/
theorem C2_merge_idempotent (pages : List PageData) (eN : List Node)
    (eE : List Edge) (maxc ovc : Int) (ra : Option Str) :
    export_graph pages
        (export_graph pages eN eE maxc ovc ra true false).nodes
        (export_graph pages eN eE maxc ovc ra true false).edges
        maxc ovc ra true false
      = export_graph pages eN eE maxc ovc ra true false ∧
    (export_graph pages
        (export_graph pages eN eE maxc ovc ra true false).nodes
        (export_graph pages eN eE maxc ovc ra true false).edges
        maxc ovc ra true false).nodes.length
      = (export_graph pages eN eE maxc ovc ra true false).nodes.length ∧
    (export_graph pages
        (export_graph pages eN eE maxc ovc ra true false).nodes
        (export_graph pages eN eE maxc ovc ra true false).edges
        maxc ovc ra true false).edges.length
      = (export_graph pages eN eE maxc ovc ra true false).edges.length := by
  set S := export_graph pages eN eE maxc ovc ra true false with hSdef
  have hwf : WFst S := export_graph_WF pages eN eE maxc ovc ra true false
  have hG : Replayable (fun st =>
      processLinks pages (pages.foldl (processPage maxc ovc ra) st)) :=
    replayable_comp
      (replayable_foldl _ (fun p => processPage_replayable maxc ovc ra p) pages)
      (processLinks_replayable pages)
  have hrun1 : processLinks pages (pages.foldl (processPage maxc ovc ra)
      (eE.foldl addEdge (eN.foldl addNode emptySt))) = S := by
    rw [hSdef]
    unfold export_graph
    simp
  have hmain : export_graph pages S.nodes S.edges maxc ovc ra true false = S := by
    have h2 : export_graph pages S.nodes S.edges maxc ovc ra true false =
        processLinks pages (pages.foldl (processPage maxc ovc ra)
          (S.edges.foldl addEdge (S.nodes.foldl addNode emptySt))) := by
      unfold export_graph
      simp
    rw [h2, load_eq_self S hwf]
    refine hG.2 (eE.foldl addEdge (eN.foldl addNode emptySt)) S ?_
    show IdsLe (processLinks pages (pages.foldl (processPage maxc ovc ra)
      (eE.foldl addEdge (eN.foldl addNode emptySt)))) S
    rw [hrun1]
    exact IdsLe.refl S
  exact ⟨hmain, by rw [hmain], by rw [hmain]⟩

/-! ### Claim C1: NEXT_CHUNK linking (Scenario A)

`prev_chunk_id` is initialised once per page (line 150) and never reset
when the heading changes, so NEXT_CHUNK edges chain consecutive chunks of
the whole page, crossing section boundaries. -/

/-- Scenario A: one page, two sections (headings `h1`, `h2`) each holding
one 25-character paragraph. -/
def scenarioAPage : PageData :=
  ⟨(r"https://www.tiktok.com/community-guidelines/en/safety").toList,
   (r"https://www.tiktok.com/community-guidelines/en/safety").toList,
   (r"Safety").toList,
   [⟨(r"h1").toList, List.replicate 25 'a'⟩,
    ⟨(r"h2").toList, List.replicate 25 'b'⟩],
   [],
   (r"tiktok_community_guidelines").toList,
   none⟩

/-- C1 counterexample: Scenario A (two one-chunk sections,
`max_chunk_chars = 1000`) produces a NEXT_CHUNK edge — not the claimed 0 —
because the chain is per-page, not per-section. -/
theorem C1_counterexample :
    edgeCount (export_graph [scenarioAPage] [] [] 1000 200 none true false)
      EdgeType.NEXT_CHUNK ≠ 0 := by
  decide

/-- C1 amended: NEXT_CHUNK connects consecutive chunks of the same page in
split order, across section boundaries.  Scenario A yields 1 PAGE, 2
SECTION and 2 CHUNK nodes, 2 PAGE_CONTAINS_SECTION and 2
SECTION_CONTAINS_CHUNK edges, and exactly one NEXT_CHUNK edge, which joins
the chunk of section `h1` to the chunk of section `h2`. -/
theorem C1_amended :
    nodeCount (export_graph [scenarioAPage] [] [] 1000 200 none true false)
      NodeType.PAGE = 1 ∧
    nodeCount (export_graph [scenarioAPage] [] [] 1000 200 none true false)
      NodeType.SECTION = 2 ∧
    nodeCount (export_graph [scenarioAPage] [] [] 1000 200 none true false)
      NodeType.CHUNK = 2 ∧
    edgeCount (export_graph [scenarioAPage] [] [] 1000 200 none true false)
      EdgeType.PAGE_CONTAINS_SECTION = 2 ∧
    edgeCount (export_graph [scenarioAPage] [] [] 1000 200 none true false)
      EdgeType.SECTION_CONTAINS_CHUNK = 2 ∧
    (export_graph [scenarioAPage] [] [] 1000 200 none true false).edges.filter
        (fun e => e.edgeType == EdgeType.NEXT_CHUNK) =
      [⟨EdgeType.NEXT_CHUNK,
        NodeId.chunk scenarioAPage.url ((r"h1").toList) 0 (List.replicate 25 'a'),
        NodeId.chunk scenarioAPage.url ((r"h2").toList) 1 (List.replicate 25 'b')⟩] := by
  decide

/-! ### Claim C4, amended (Scenario B) -/

theorem splitTextGo_of_le (m ov fuel : Nat) (r : Str) (h : r.length ≤ m) :
    splitTextGo m ov fuel r = [r] := by
  cases fuel with
  | zero => rfl
  | succ n => simp [splitTextGo, h]

theorem splitTextGo_step (m ov fuel : Nat) (r : Str) (h : ¬ r.length ≤ m) :
    splitTextGo m ov (fuel + 1) r =
      r.take m :: splitTextGo m ov fuel (r.drop (m - ov)) := by
  simp [splitTextGo, h]

/-- Any 5000-character text splits under `(2000, 200)` into exactly the
three hard-cut windows `[0,2000)`, `[1800,3800)`, `[3600,5000)`. -/
theorem split_text_5000 (text : Str) (h : text.length = 5000) :
    split_text text 2000 200 =
      [text.take 2000, (text.drop 1800).take 2000, text.drop 3600] := by
  have hc1 : ¬ ((2000 : Int) ≤ 0) := by norm_num
  have hc2 : ¬ ((text.length : Int) ≤ 2000) := by rw [h]; norm_num
  unfold split_text
  rw [if_neg hc1, if_neg hc2]
  have hm : (2000 : Int).toNat = 2000 := rfl
  have hov : (max 0 (min (200 : Int) (2000 - 1))).toNat = 200 := rfl
  rw [hm, hov, h]
  have s1 : ¬ text.length ≤ 2000 := by omega
  have s2 : ¬ (text.drop 1800).length ≤ 2000 := by simp [h]
  have s3 : ((text.drop 1800).drop 1800).length ≤ 2000 := by simp [h]
  rw [show (5000 : Nat) = 4999 + 1 from rfl, splitTextGo_step _ _ _ _ s1]
  rw [show (4999 : Nat) = 4998 + 1 from rfl]
  rw [show (2000 - 200 : Nat) = 1800 from rfl]
  rw [splitTextGo_step _ _ _ _ s2]
  rw [show (2000 - 200 : Nat) = 1800 from rfl]
  rw [splitTextGo_of_le _ _ _ _ s3]
  rw [List.drop_drop]

/-- C4 amended: `_split_text` has no split-point preference at all — it
hard-cuts at the fixed offsets `start + max_chars` regardless of sentence
terminators or whitespace (see the counterexample), and Scenario B still
holds numerically: any 5000-character section text with
`max_chunk_chars = 2000, overlap_chars = 200` yields exactly the three
window chunks `[0,2000)`, `[1800,3800)`, `[3600,5000)`, and its export
carries 3 CHUNK nodes and 2 NEXT_CHUNK edges. -/
theorem C4_amended (text : Str) (h : text.length = 5000) :
    split_text text 2000 200 =
      [text.take 2000, (text.drop 1800).take 2000, text.drop 3600] ∧
    nodeCount (export_graph
        [⟨(r"https://x.com/community-guidelines/en/b").toList,
          (r"https://x.com/community-guidelines/en/b").toList,
          (r"B").toList, [⟨(r"h").toList, text⟩], [],
          (r"src").toList, none⟩] [] [] 2000 200 none true false)
      NodeType.CHUNK = 3 ∧
    edgeCount (export_graph
        [⟨(r"https://x.com/community-guidelines/en/b").toList,
          (r"https://x.com/community-guidelines/en/b").toList,
          (r"B").toList, [⟨(r"h").toList, text⟩], [],
          (r"src").toList, none⟩] [] [] 2000 200 none true false)
      EdgeType.NEXT_CHUNK = 2 := by
  have hsplit := split_text_5000 text h
  refine ⟨hsplit, ?_, ?_⟩ <;>
  · simp only [export_graph, processLinks, processPage, List.foldl_cons,
      List.foldl_nil, split_chunks, splitChunksGo, hsplit, emitPieces,
      List.append_nil, processChunk, List.lookup, emptySt, addNode, addEdge,
      Node.id, nodeCount, edgeCount]
    simp [Node.nodeType, List.filter,
      show (NodeType.PAGE == NodeType.CHUNK) = false from rfl,
      show (NodeType.SECTION == NodeType.CHUNK) = false from rfl,
      show (NodeType.CHUNK == NodeType.CHUNK) = true from rfl,
      show (EdgeType.PAGE_CONTAINS_SECTION == EdgeType.NEXT_CHUNK) = false from rfl,
      show (EdgeType.SECTION_CONTAINS_CHUNK == EdgeType.NEXT_CHUNK) = false from rfl,
      show (EdgeType.NEXT_CHUNK == EdgeType.NEXT_CHUNK) = true from rfl]

/-- Witness for C4 amended at `text = 5000 × 'a'`. -/
theorem C4_amended_witness :
    (List.replicate 5000 'a').length = 5000 ∧
    split_text (List.replicate 5000 'a') 2000 200 =
      [(List.replicate 5000 'a').take 2000,
       ((List.replicate 5000 'a').drop 1800).take 2000,
       (List.replicate 5000 'a').drop 3600] :=
  ⟨List.length_replicate 5000 'a',
   (C4_amended (List.replicate 5000 'a') (List.length_replicate 5000 'a')).1⟩

/-! ## `PoliteFetcher.fetch` (src/scraper/fetch.py, lines 91-157)

The network is abstracted as a map from the attempt index to that
attempt's outcome: either the `try` block raises (`session.get` failure, or
an `OSError` from the cache save — both land in the same `except`) or it
yields a response with a status, an optional body text and a final URL.
The sleeps and the on-disk cache write are effects that do not influence
the returned `FetchResult` and are not modelled; the cache *read*
(`_load_cache`) is the `cached` input: when it succeeds it always carries a
`content` string, while `final_url`/`headers` may be absent from the
metadata JSON (hence `Option`, read with the defaults the code uses). -/

structure CacheMeta where
  content : Str
  final_url : Option Str
  headers : Option (List (Str × Str))
  deriving DecidableEq

structure PyResponse where
  status : Int
  text : Option Str
  url : Str
  headers : List (Str × Str)
  deriving DecidableEq

inductive AttemptOutcome
  | exc (msg : Str)
  | resp (r : PyResponse)
  deriving DecidableEq

/-- `FetchResult` (src/scraper/fetch.py, lines 12-20). -/
structure FetchResult where
  url : Str
  final_url : Str
  status_code : Option Int
  content : Option Str
  headers : List (Str × Str)
  from_cache : Bool
  error : Option Str
  deriving DecidableEq

/-- `str(exc)` for the raised `requests.RequestException(f"retryable status
{status}")`. -/
def retryableMsg (status : Int) : Str :=
  (r"retryable status ").toList ++ (toString status).toList

/-- The `for attempt in range(self.retries + 1)` loop; `fuel` is the number
of remaining iterations, `attempt` the current index. -/
def fetchGo (url : Str) (cached : Option CacheMeta) (retries : Int)
    (outcomes : Nat → AttemptOutcome) (attempt : Nat) :
    Nat → FetchResult
  | 0 =>
      ⟨url, url, none, none, [], false, some ((r"unknown failure").toList)⟩
  | fuel + 1 =>
      match outcomes attempt with
      | .exc m =>
          if retries ≤ (attempt : Int) then
            ⟨url, url, none, none, [], false, some m⟩
          else fetchGo url cached retries outcomes (attempt + 1) fuel
      | .resp rsp =>
          match cached with
          | some meta =>
              if rsp.status = 304 then
                ⟨url, meta.final_url.getD url, some rsp.status,
                 some meta.content, meta.headers.getD [], true, none⟩
              else if 500 ≤ rsp.status ∨ rsp.status = 429 then
                if retries ≤ (attempt : Int) then
                  ⟨url, url, none, none, [], false, some (retryableMsg rsp.status)⟩
                else fetchGo url cached retries outcomes (attempt + 1) fuel
              else
                ⟨url, rsp.url, some rsp.status, some (rsp.text.getD []),
                 rsp.headers, false, none⟩
          | none =>
              if 500 ≤ rsp.status ∨ rsp.status = 429 then
                if retries ≤ (attempt : Int) then
                  ⟨url, url, none, none, [], false, some (retryableMsg rsp.status)⟩
                else fetchGo url cached retries outcomes (attempt + 1) fuel
              else
                ⟨url, rsp.url, some rsp.status, some (rsp.text.getD []),
                 rsp.headers, false, none⟩

/-- `PoliteFetcher.fetch(url)`. -/
def fetch (url : Str) (cached : Option CacheMeta) (retries : Int)
    (outcomes : Nat → AttemptOutcome) : FetchResult :=
  fetchGo url cached retries outcomes 0 (retries + 1).toNat

/-! ### Claim C8 -/

theorem fetchGo_exclusive (url : Str) (cached : Option CacheMeta)
    (retries : Int) (outcomes : Nat → AttemptOutcome) :
    ∀ (fuel attempt : Nat),
      ((fetchGo url cached retries outcomes attempt fuel).content.isSome ∧
        (fetchGo url cached retries outcomes attempt fuel).error = none) ∨
      ((fetchGo url cached retries outcomes attempt fuel).content = none ∧
        (fetchGo url cached retries outcomes attempt fuel).error.isSome)
  | 0, attempt => by simp [fetchGo]
  | fuel + 1, attempt => by
      have ih := fetchGo_exclusive url cached retries outcomes fuel (attempt + 1)
      rcases houtcome : outcomes attempt with m | rsp
      · by_cases hr : retries ≤ (attempt : Int) <;>
          simp [fetchGo, houtcome, hr, ih]
      · cases cached with
        | none =>
            by_cases h5 : 500 ≤ rsp.status ∨ rsp.status = 429
            · by_cases hr : retries ≤ (attempt : Int) <;>
                simp [fetchGo, houtcome, h5, hr, ih]
            · simp [fetchGo, houtcome, h5]
        | some meta =>
            by_cases h304 : rsp.status = 304
            · simp [fetchGo, houtcome, h304]
            · by_cases h5 : 500 ≤ rsp.status ∨ rsp.status = 429
              · by_cases hr : retries ≤ (attempt : Int) <;>
                  simp [fetchGo, houtcome, h304, h5, hr, ih]
              · simp [fetchGo, houtcome, h304, h5]

/-- C8: every `FetchResult` returned by `fetch` has exactly one of content
and error: content present with `error=None`, or content absent with a
populated error — never both, never neither. -/
theorem C8_content_xor_error (url : Str) (cached : Option CacheMeta)
    (retries : Int) (outcomes : Nat → AttemptOutcome) :
    ((fetch url cached retries outcomes).content.isSome ∧
      (fetch url cached retries outcomes).error = none) ∨
    ((fetch url cached retries outcomes).content = none ∧
      (fetch url cached retries outcomes).error.isSome) :=
  fetchGo_exclusive url cached retries outcomes (retries + 1).toNat 0

/-! ### Claim C7 -/

/-- C7 counterexample: a `404` response is neither 5xx, 429 nor 304 and is
not a success, yet `fetch` returns its body as `content` with `error=None`
(and the crawl loop would even accept it, since it only tests
`result.content`).  The claimed "populated error, no content" for
non-retryable failure statuses is false. -/
theorem C7_counterexample :
    (fetch ((r"https://x.com/p").toList) none 3
        (fun _ => .resp ⟨404, some ((r"nf").toList), (r"https://x.com/p").toList, []⟩)).content
      = some ((r"nf").toList) ∧
    (fetch ((r"https://x.com/p").toList) none 3
        (fun _ => .resp ⟨404, some ((r"nf").toList), (r"https://x.com/p").toList, []⟩)).error
      = none := by
  constructor <;> rfl

/-- An attempt that goes through the `except` path: either the request
raised, or the status was retryable (`>= 500` or `429`) and the code
itself raised. -/
def attemptRaises : AttemptOutcome → Bool
  | .exc _ => true
  | .resp rsp => (500 ≤ rsp.status || rsp.status == 429)

theorem fetchGo_exhausted (url : Str) (cached : Option CacheMeta)
    (retries : Int) (outcomes : Nat → AttemptOutcome) :
    ∀ (fuel attempt : Nat),
      (∀ k, k < fuel → attemptRaises (outcomes (attempt + k)) = true) →
      (fetchGo url cached retries outcomes attempt fuel).error.isSome = true ∧
      (fetchGo url cached retries outcomes attempt fuel).content = none
  | 0, attempt, _ => by simp [fetchGo]
  | fuel + 1, attempt, h => by
      have h0 := h 0 (Nat.succ_pos fuel)
      have ih := fetchGo_exhausted url cached retries outcomes fuel (attempt + 1)
        (fun k hk => by
          have := h (k + 1) (by omega)
          rwa [show attempt + (k + 1) = attempt + 1 + k by omega] at this)
      rcases houtcome : outcomes attempt with m | rsp
      · by_cases hr : retries ≤ (attempt : Int) <;>
          simp [fetchGo, houtcome, hr, ih]
      · simp only [Nat.add_zero] at h0
        rw [houtcome] at h0
        simp only [attemptRaises] at h0
        have h5 : 500 ≤ rsp.status ∨ rsp.status = 429 := by
          rcases Bool.or_eq_true_iff.mp h0 with h' | h'
          · exact Or.inl (by exact_mod_cast of_decide_eq_true h')
          · exact Or.inr (by exact_mod_cast eq_of_beq h')
        have h304 : ¬ rsp.status = 304 := by omega
        cases cached with
        | none =>
            by_cases hr : retries ≤ (attempt : Int) <;>
              simp [fetchGo, houtcome, h5, hr, ih]
        | some meta =>
            by_cases hr : retries ≤ (attempt : Int) <;>
              simp [fetchGo, houtcome, h304, h5, hr, ih]

/-- C7 amended: only the exception path populates `error`: when every
attempt in the retry budget raises or hits a retryable status (5xx/429),
`fetch` terminates with a populated `error` and no content.  A non-304,
non-retryable status — success or failure alike, e.g. 404 — instead
returns the response body as `content` with `error=None` (see the
counterexample). -/
theorem C7_amended (url : Str) (cached : Option CacheMeta) (retries : Int)
    (outcomes : Nat → AttemptOutcome)
    (h : ∀ k, k < (retries + 1).toNat → attemptRaises (outcomes k) = true) :
    (fetch url cached retries outcomes).error.isSome = true ∧
    (fetch url cached retries outcomes).content = none :=
  fetchGo_exhausted url cached retries outcomes (retries + 1).toNat 0
    (fun k hk => by simpa using h k hk)

/-- Witness for C7 amended: two attempts, both raising. -/
theorem C7_amended_witness :
    (∀ k, k < ((1 : Int) + 1).toNat →
      attemptRaises ((fun _ => AttemptOutcome.exc ((r"boom").toList)) k) = true) ∧
    ((fetch ((r"https://x.com/p").toList) none 1
        (fun _ => AttemptOutcome.exc ((r"boom").toList))).error.isSome = true ∧
     (fetch ((r"https://x.com/p").toList) none 1
        (fun _ => AttemptOutcome.exc ((r"boom").toList))).content = none) :=
  ⟨fun _ _ => rfl,
   C7_amended ((r"https://x.com/p").toList) none 1
     (fun _ => AttemptOutcome.exc ((r"boom").toList)) (fun _ _ => rfl)⟩

/-! ## `crawl` (src/scraper/crawl.py, lines 86-255)

The injected collaborators keep their dependency-injection shape:
`fetcher.fetch` is a function `Str → FetchResult`, `robots.can_fetch` an
optional `Str → Bool`, `parse_html` a function from content and base URL to
`(title, h1, chunks, out_links)`, and `rules.is_allowed_url` a function
`Str → Str → Bool` (the `rules=None` default resolution on lines 157-163
builds a `RobotsRules` object before the loop; the model takes the
already-resolved predicate, which covers every rule set including those
defaults).  The `while` loop is driven by explicit fuel; every theorem
below holds for all fuel values, hence for the terminating Python run. -/

/-- Python's `sub in s` substring test. -/
def pyInStr (sub s : Str) : Bool := decide (List.IsInfix sub s)

def is_youtube_policy_page (page_title h1 url : Str) : Bool :=
  let text := pyLower (page_title ++ ' ' :: h1 ++ ' ' :: url)
  let reject_keywords : List Str :=
    [(r"how to").toList, (r"fix").toList, (r"troubleshoot").toList,
     (r"account").toList, (r"payments").toList, (r"billing").toList,
     (r"premium").toList, (r"creator support").toList, (r"contact").toList,
     (r"report a problem").toList, (r"appeal").toList, (r"status").toList,
     (r"features").toList, (r"watch history").toList,
     (r"comment settings").toList, (r"upload issues").toList,
     (r"channel settings").toList]
  if reject_keywords.any (fun k => pyInStr k text) then false
  else
    let allow_keywords : List Str :=
      [(r"community guidelines").toList, (r"violence").toList,
       (r"violent").toList, (r"dangerous").toList, (r"hate").toList,
       (r"harassment").toList, (r"sensitive").toList,
       (r"misinformation").toList, (r"child safety").toList,
       (r"children").toList, (r"spam").toList, (r"scam").toList,
       (r"deceptive").toList, (r"regulated").toList, (r"drugs").toList,
       (r"weapons").toList, (r"firearms").toList, (r"nudity").toList,
       (r"sexual").toList, (r"suicide").toList, (r"self-harm").toList,
       (r"extremism").toList, (r"terror").toList, (r"threat").toList,
       (r"incitement").toList]
    allow_keywords.any (fun k => pyInStr k text)

/-- `CrawlResult` (lines 25-28). -/
structure CrawlResult where
  pages : List PageData
  skipped_robots : List Str

/-- The loop's mutable state. -/
structure CrawlSt where
  queue : List (Str × Int)
  seen : List Str
  queued : List Str
  skipped_robots : List Str
  pages : List PageData

/-- `allowed_prefixes = allowed_prefixes or ["/community-guidelines/en"]`
(`None` and the empty list both fall back). -/
def resolvedPrefixes (allowed_prefixes : Option (List Str)) : List Str :=
  match allowed_prefixes with
  | some l => if l = [] then [(r"/community-guidelines/en").toList] else l
  | none => [(r"/community-guidelines/en").toList]

/-- `origin = urlunparse(("https", urlparse(start_url).netloc, "", "", "", ""))`. -/
def crawlOrigin (start_url : Str) : Str :=
  urlunparse ((r"https").toList) (urlparse start_url).netloc [] [] [] []

/-- `robots and not robots.can_fetch(u)`. -/
def robotsBlocks (robots : Option (Str → Bool)) (u : Str) : Bool :=
  match robots with
  | some rc => !rc u
  | none => false

/-- Set-style add to an insertion-ordered list. -/
def addSet (l : List Str) (u : Str) : List Str :=
  if u ∈ l then l else l ++ [u]

/-- The body of the `for link in out_links` loop: the accumulator carries
`normalized_links` and the state (queue/queued/skipped_robots may grow). -/
def linkStep (prefixes : List Str) (origin : Str) (rules : Str → Str → Bool)
    (robots : Option (Str → Bool)) (depth_limit : Option Int)
    (defaults : List (Str × Str)) (kqp : Option (List Str)) (depth : Int)
    (acc : List Str × CrawlSt) (link : Str) : List Str × CrawlSt :=
  let n := normalize_url (apply_default_query_params link defaults) kqp
  let nl := if n ∈ acc.1 then acc.1 else acc.1 ++ [n]
  let s := acc.2
  if n ∉ s.seen ∧ n ∉ s.queued ∧ is_target_path n prefixes = true ∧
      rules n origin = true then
    if depth_limit.any (fun dl => decide (dl < depth + 1)) then (nl, s)
    else if robotsBlocks robots n then
      (nl, { s with skipped_robots := addSet s.skipped_robots n })
    else
      (nl, { s with queue := s.queue ++ [(n, depth + 1)], queued := n :: s.queued })
  else (nl, s)

/-- `queue and len(pages) < max_pages` negated: the `while` guard fails. -/
def crawlDone (max_pages : Int) (s : CrawlSt) : Prop :=
  s.queue = [] ∨ max_pages ≤ (s.pages.length : Int)

instance (max_pages : Int) (s : CrawlSt) : Decidable (crawlDone max_pages s) := by
  unfold crawlDone
  infer_instance

/-- One iteration of the `while` loop (the guard has already passed). -/
def crawlStep (prefixes : List Str) (origin : Str)
    (rules : Str → Str → Bool) (fetchF : Str → FetchResult)
    (robots : Option (Str → Bool))
    (parseF : Str → Str → Str × Str × List ChunkIn × List Str)
    (source : Str) (platforms : Option (List Str)) (kqp : Option (List Str))
    (defaults : List (Str × Str)) (depth_limit : Option Int)
    (s : CrawlSt) : CrawlSt :=
  match s.queue with
  | [] => s
  | (url, depth) :: rest =>
      if url ∈ s.seen then { s with queue := rest }
      else
        let s1 : CrawlSt := { s with queue := rest, seen := url :: s.seen }
        if depth_limit.any (fun dl => decide (dl < depth)) then s1
        else if ¬ is_target_path url prefixes = true then s1
        else if ¬ rules url origin = true then s1
        else if robotsBlocks robots url then
          { s1 with skipped_robots := addSet s1.skipped_robots url }
        else
          match (fetchF url).content with
          | none => s1
          | some c =>
              if c = [] then s1
              else
                let final_url := normalize_url
                  (apply_default_query_params (fetchF url).final_url defaults) kqp
                let parsed := parseF c final_url
                if source = (r"youtube_community_guidelines").toList ∧
                    ¬ is_youtube_policy_page parsed.1 parsed.2.1 final_url = true
                then s1
                else
                  let folded := parsed.2.2.2.foldl
                    (linkStep prefixes origin rules robots depth_limit
                      defaults kqp depth) ([], s1)
                  { folded.2 with pages := folded.2.pages ++
                      [⟨url, final_url, parsed.1, parsed.2.2.1, folded.1,
                        source, platforms⟩] }

def crawlLoop (max_pages : Int) (prefixes : List Str) (origin : Str)
    (rules : Str → Str → Bool) (fetchF : Str → FetchResult)
    (robots : Option (Str → Bool))
    (parseF : Str → Str → Str × Str × List ChunkIn × List Str)
    (source : Str) (platforms : Option (List Str)) (kqp : Option (List Str))
    (defaults : List (Str × Str)) (depth_limit : Option Int) :
    Nat → CrawlSt → CrawlSt
  | 0, s => s
  | fuel + 1, s =>
      if crawlDone max_pages s then s
      else crawlLoop max_pages prefixes origin rules fetchF robots parseF
        source platforms kqp defaults depth_limit fuel
        (crawlStep prefixes origin rules fetchF robots parseF
          source platforms kqp defaults depth_limit s)

/-- Lexicographic (code-point) order on strings, for `sorted(...)`. -/
def strLe : Str → Str → Bool
  | [], _ => true
  | _ :: _, [] => false
  | x :: xs, y :: ys => x < y || (x == y && strLe xs ys)

/-- `crawl(start_url, ...)` with the loop driven by `fuel`. -/
def crawl (start_url : Str) (max_pages : Int)
    (allowed_prefixes : Option (List Str)) (rules : Str → Str → Bool)
    (fetchF : Str → FetchResult) (robots : Option (Str → Bool))
    (parseF : Str → Str → Str × Str × List ChunkIn × List Str)
    (source : Str) (platforms : Option (List Str)) (kqp : Option (List Str))
    (youtube_max_depth : Int) (fuel : Nat) : CrawlResult :=
  let prefixes := resolvedPrefixes allowed_prefixes
  let origin := crawlOrigin start_url
  let defaults := extract_query_defaults start_url kqp
  let normalized_start := normalize_url
    (apply_default_query_params start_url defaults) kqp
  let depth_limit :=
    if source = (r"youtube_community_guidelines").toList
    then some youtube_max_depth else none
  let sEnd := crawlLoop max_pages prefixes origin rules fetchF robots parseF
    source platforms kqp defaults depth_limit fuel
    ⟨[(normalized_start, 0)], [], [normalized_start], [], []⟩
  ⟨sEnd.pages, sEnd.skipped_robots.mergeSort strLe⟩

/-! ### Claim C5 -/

theorem linkStep_pages (prefixes : List Str) (origin : Str)
    (rules : Str → Str → Bool) (robots : Option (Str → Bool))
    (depth_limit : Option Int) (defaults : List (Str × Str))
    (kqp : Option (List Str)) (depth : Int)
    (acc : List Str × CrawlSt) (link : Str) :
    ((linkStep prefixes origin rules robots depth_limit defaults kqp depth
      acc link).2).pages = acc.2.pages := by
  simp only [linkStep]
  split_ifs <;> rfl

theorem linkFold_pages (prefixes : List Str) (origin : Str)
    (rules : Str → Str → Bool) (robots : Option (Str → Bool))
    (depth_limit : Option Int) (defaults : List (Str × Str))
    (kqp : Option (List Str)) (depth : Int) :
    ∀ (links : List Str) (acc : List Str × CrawlSt),
      ((links.foldl (linkStep prefixes origin rules robots depth_limit
        defaults kqp depth) acc).2).pages = acc.2.pages
  | [], _ => rfl
  | l :: ls, acc => by
      rw [List.foldl_cons,
        linkFold_pages prefixes origin rules robots depth_limit defaults kqp
          depth ls _,
        linkStep_pages]

/-- If the robots check does not block `u`, then any configured robots
checker permits `u`. -/
theorem robotsBlocks_false (robots : Option (Str → Bool)) (u : Str)
    (h : robotsBlocks robots u = false) :
    ∀ rc, robots = some rc → rc u = true := by
  intro rc hrc
  subst hrc
  simpa [robotsBlocks] using h

/-- One crawl iteration at most appends one accepted page, and any page it
appends passed, before its fetch, the path-prefix admission, the rule-set
match, and (when configured) the robots check. -/
theorem crawlStep_spec (prefixes : List Str) (origin : Str)
    (rules : Str → Str → Bool) (fetchF : Str → FetchResult)
    (robots : Option (Str → Bool))
    (parseF : Str → Str → Str × Str × List ChunkIn × List Str)
    (source : Str) (platforms : Option (List Str)) (kqp : Option (List Str))
    (defaults : List (Str × Str)) (depth_limit : Option Int) (s : CrawlSt) :
    (∀ pg ∈ (crawlStep prefixes origin rules fetchF robots parseF source
        platforms kqp defaults depth_limit s).pages,
      pg ∈ s.pages ∨
        (is_target_path pg.url prefixes = true ∧
         rules pg.url origin = true ∧
         robotsBlocks robots pg.url = false)) ∧
    (crawlStep prefixes origin rules fetchF robots parseF source platforms
        kqp defaults depth_limit s).pages.length ≤ s.pages.length + 1 := by
  rcases hq : s.queue with _ | ⟨⟨url, depth⟩, rest⟩
  · simp only [crawlStep, hq]
    exact ⟨fun pg hpg => Or.inl hpg, Nat.le_succ _⟩
  · simp only [crawlStep, hq]
    by_cases h1 : url ∈ s.seen
    · simp only [if_pos h1]
      exact ⟨fun pg hpg => Or.inl hpg, Nat.le_succ _⟩
    · simp only [if_neg h1]
      rcases hc : (fetchF url).content with _ | c
      · simp only [hc]
        split_ifs <;> exact ⟨fun pg hpg => Or.inl hpg, Nat.le_succ _⟩
      · simp only [hc]
        split_ifs with h2 h3 h4 h5 h6 h7
        all_goals try exact ⟨fun pg hpg => Or.inl hpg, Nat.le_succ _⟩
        constructor
        · intro pg hpg
          simp only [List.mem_append, List.mem_singleton] at hpg
          rcases hpg with hpg | hpg
          · rw [linkFold_pages] at hpg
            exact Or.inl hpg
          · subst hpg
            refine Or.inr ⟨by simpa using h3, by simpa using h4, by simpa using h5⟩
        · simp [linkFold_pages]

theorem crawlLoop_inv (max_pages : Int) (prefixes : List Str) (origin : Str)
    (rules : Str → Str → Bool) (fetchF : Str → FetchResult)
    (robots : Option (Str → Bool))
    (parseF : Str → Str → Str × Str × List ChunkIn × List Str)
    (source : Str) (platforms : Option (List Str)) (kqp : Option (List Str))
    (defaults : List (Str × Str)) (depth_limit : Option Int) :
    ∀ (fuel : Nat) (s : CrawlSt),
      (∀ pg ∈ s.pages,
        is_target_path pg.url prefixes = true ∧
        rules pg.url origin = true ∧
        robotsBlocks robots pg.url = false) →
      ((s.pages.length : Int) ≤ max_pages) →
      (∀ pg ∈ (crawlLoop max_pages prefixes origin rules fetchF robots parseF
          source platforms kqp defaults depth_limit fuel s).pages,
        is_target_path pg.url prefixes = true ∧
        rules pg.url origin = true ∧
        robotsBlocks robots pg.url = false) ∧
      (((crawlLoop max_pages prefixes origin rules fetchF robots parseF
          source platforms kqp defaults depth_limit fuel s).pages.length : Int)
        ≤ max_pages)
  | 0, s, h1, h2 => ⟨h1, h2⟩
  | fuel + 1, s, h1, h2 => by
      simp only [crawlLoop]
      by_cases hd : crawlDone max_pages s
      · simp only [if_pos hd]
        exact ⟨h1, h2⟩
      · simp only [if_neg hd]
        obtain ⟨hstep1, hstep2⟩ := crawlStep_spec prefixes origin rules fetchF
          robots parseF source platforms kqp defaults depth_limit s
        apply crawlLoop_inv max_pages prefixes origin rules fetchF robots
          parseF source platforms kqp defaults depth_limit fuel _ ?_ ?_
        · intro pg hpg
          rcases hstep1 pg hpg with h | h
          · exact h1 pg h
          · exact h
        · have hlt : ¬ (max_pages ≤ (s.pages.length : Int)) :=
            fun hle => hd (Or.inr hle)
          omega

/-- C5: for every `max_pages = N ≥ 0` and any injected rule set, fetcher,
robots checker and parser, `crawl` returns at most `N` pages, and every
returned page's URL passed, before its fetch, the path-prefix admission
check, the static rule-set match, and (when a robots checker is
configured) the robots permission check. -/
theorem C5_frontier_bound (start_url : Str) (max_pages : Int)
    (allowed_prefixes : Option (List Str)) (rules : Str → Str → Bool)
    (fetchF : Str → FetchResult) (robots : Option (Str → Bool))
    (parseF : Str → Str → Str × Str × List ChunkIn × List Str)
    (source : Str) (platforms : Option (List Str)) (kqp : Option (List Str))
    (youtube_max_depth : Int) (fuel : Nat) (h : 0 ≤ max_pages) :
    (((crawl start_url max_pages allowed_prefixes rules fetchF robots parseF
        source platforms kqp youtube_max_depth fuel).pages.length : Int)
      ≤ max_pages) ∧
    ∀ pg ∈ (crawl start_url max_pages allowed_prefixes rules fetchF robots
        parseF source platforms kqp youtube_max_depth fuel).pages,
      is_target_path pg.url (resolvedPrefixes allowed_prefixes) = true ∧
      rules pg.url (crawlOrigin start_url) = true ∧
      (∀ rc, robots = some rc → rc pg.url = true) := by
  have hinv := crawlLoop_inv max_pages (resolvedPrefixes allowed_prefixes)
    (crawlOrigin start_url) rules fetchF robots parseF source platforms kqp
    (extract_query_defaults start_url kqp)
    (if source = (r"youtube_community_guidelines").toList
     then some youtube_max_depth else none)
    fuel
    ⟨[(normalize_url (apply_default_query_params start_url
        (extract_query_defaults start_url kqp)) kqp, 0)], [],
      [normalize_url (apply_default_query_params start_url
        (extract_query_defaults start_url kqp)) kqp], [], []⟩
    (by intro pg hpg; simp at hpg)
    (by simpa using h)
  constructor
  · exact hinv.2
  · intro pg hpg
    obtain ⟨ht, hr, hb⟩ := hinv.1 pg hpg
    exact ⟨ht, hr, robotsBlocks_false robots pg.url hb⟩

/-- Witness for C5 at a rule set that accepts everything, a fetcher that
always errors, and `max_pages = 2`. -/
theorem C5_frontier_bound_witness :
    (0 : Int) ≤ 2 ∧
    (((crawl ((r"https://x.com/community-guidelines/en").toList) 2 none
        (fun _ _ => true)
        (fun u => ⟨u, u, none, none, [], false, some ((r"err").toList)⟩)
        none (fun _ _ => ([], [], [], []))
        ((r"tiktok_community_guidelines").toList) none none 2
        3).pages.length : Int) ≤ 2) :=
  ⟨by norm_num,
   (C5_frontier_bound ((r"https://x.com/community-guidelines/en").toList) 2
     none (fun _ _ => true)
     (fun u => ⟨u, u, none, none, [], false, some ((r"err").toList)⟩)
     none (fun _ _ => ([], [], [], []))
     ((r"tiktok_community_guidelines").toList) none none 2 3
     (by norm_num)).1⟩

/-! ## Claim C9: idempotence of `normalize_url`

Support lemmas: character classes, `takeWhile`/`dropWhile` over appends,
slash collapsing/stripping, ASCII lower-casing, percent-coding round
trips, and the re-parse of a normalized URL. -/

theorem takeWhile_append_of_all (p : Char → Bool) :
    ∀ (l r : Str), (∀ c ∈ l, p c = true) →
      (l ++ r).takeWhile p = l ++ r.takeWhile p
  | [], _, _ => rfl
  | c :: l, r, h => by
      have hc := h c (List.mem_cons_self c l)
      simp only [List.cons_append, List.takeWhile_cons, hc, if_true]
      rw [takeWhile_append_of_all p l r (fun x hx => h x (List.mem_cons_of_mem c hx))]

theorem dropWhile_append_of_all (p : Char → Bool) :
    ∀ (l r : Str), (∀ c ∈ l, p c = true) →
      (l ++ r).dropWhile p = r.dropWhile p
  | [], _, _ => rfl
  | c :: l, r, h => by
      have hc := h c (List.mem_cons_self c l)
      simp only [List.cons_append, List.dropWhile_cons, hc, if_true]
      exact dropWhile_append_of_all p l r (fun x hx => h x (List.mem_cons_of_mem c hx))

theorem collapseSlashes_cons_cons_pos {x y : Char} (s : Str)
    (h : (x == '/' && y == '/') = true) :
    collapseSlashes (x :: y :: s) = collapseSlashes (y :: s) := by
  simp only [collapseSlashes]
  rw [if_pos h]

theorem collapseSlashes_cons_cons_neg {x y : Char} (s : Str)
    (h : ¬ (x == '/' && y == '/') = true) :
    collapseSlashes (x :: y :: s) = x :: collapseSlashes (y :: s) := by
  simp only [collapseSlashes]
  rw [if_neg h]

/-- Characters surviving `collapseSlashes` come from the input. -/
theorem mem_collapseSlashes : ∀ (s : Str) (c : Char), c ∈ collapseSlashes s → c ∈ s
  | [], _, h => h
  | [x], _, h => h
  | x :: y :: s, c, h => by
      by_cases hxy : (x == '/' && y == '/') = true
      · rw [collapseSlashes_cons_cons_pos s hxy] at h
        exact List.mem_cons_of_mem x (mem_collapseSlashes (y :: s) c h)
      · rw [collapseSlashes_cons_cons_neg s hxy] at h
        rcases List.mem_cons.mp h with h | h
        · simp [h]
        · exact List.mem_cons_of_mem x (mem_collapseSlashes (y :: s) c h)

theorem collapseSlashes_ne_nil : ∀ (s : Str), s ≠ [] → collapseSlashes s ≠ []
  | [], h, _ => h rfl
  | [x], _, h => by simp [collapseSlashes] at h
  | x :: y :: s, _, h => by
      by_cases hxy : (x == '/' && y == '/') = true <;>
        simp [collapseSlashes, hxy] at h
      exact collapseSlashes_ne_nil (y :: s) (by simp) h

/-- No two adjacent slashes. -/
def NoDupSlash (s : Str) : Prop :=
  List.Chain' (fun a b => ¬(a = '/' ∧ b = '/')) s

/-- The head survives collapsing (when the head slash is dropped, the next
character is also a slash, so the value of the head is unchanged). -/
theorem collapseSlashes_head : ∀ (s : Str) (a : Char),
    (collapseSlashes (a :: s)).head? = some a
  | [], _ => rfl
  | b :: s, a => by
      by_cases h : (a == '/' && b == '/') = true
      · obtain ⟨ha, hb⟩ := Bool.and_eq_true_iff.mp h
        have ha' : a = '/' := by simpa using ha
        have hb' : b = '/' := by simpa using hb
        simp only [collapseSlashes, h, if_true]
        rw [collapseSlashes_head s b, hb', ha']
      · simp [collapseSlashes, h]

theorem collapseSlashes_noDupSlash : ∀ (s : Str), NoDupSlash (collapseSlashes s)
  | [] => List.chain'_nil
  | [x] => by simp [collapseSlashes, NoDupSlash]
  | x :: y :: s => by
      by_cases hxy : (x == '/' && y == '/') = true
      · simp only [collapseSlashes, hxy, if_true]
        exact collapseSlashes_noDupSlash (y :: s)
      · rw [collapseSlashes_cons_cons_neg s hxy]
        rw [NoDupSlash, List.chain'_cons']
        refine ⟨?_, collapseSlashes_noDupSlash (y :: s)⟩
        intro z hz
        rw [collapseSlashes_head s y] at hz
        simp only [Option.mem_def, Option.some.injEq] at hz
        subst hz
        intro ⟨hx, hz⟩
        subst hx hz
        simp at hxy

theorem collapseSlashes_of_noDupSlash : ∀ (s : Str), NoDupSlash s →
    collapseSlashes s = s
  | [], _ => rfl
  | [_], _ => rfl
  | x :: y :: s, h => by
      have hrel := (List.chain'_cons.mp h).1
      have hxy : ¬ (x == '/' && y == '/') = true := by
        intro hx
        obtain ⟨ha, hb⟩ := Bool.and_eq_true_iff.mp hx
        exact hrel ⟨by simpa using ha, by simpa using hb⟩
      rw [collapseSlashes_cons_cons_neg s hxy,
        collapseSlashes_of_noDupSlash (y :: s) (List.chain'_cons.mp h).2]

/-- `rstripSlashes s` is a prefix of `s`. -/
theorem rstripSlashes_front (s : Str) : List.IsPrefix (rstripSlashes s) s := by
  have h : List.IsSuffix (List.dropWhile (fun c => c == '/') s.reverse) s.reverse :=
    List.dropWhile_suffix _
  have h2 := List.reverse_prefix.mpr h
  rw [List.reverse_reverse] at h2
  exact h2

/-- After `rstrip("/")` the string is empty or does not end in `/`. -/
theorem rstripSlashes_getLast (s : Str) (c : Char)
    (h : (rstripSlashes s).getLast? = some c) : ¬ c = '/' := by
  unfold rstripSlashes at h
  rw [List.getLast?_reverse] at h
  have h2 := List.head?_dropWhile_not (fun c => c == '/') s.reverse
  rw [h] at h2
  simpa using h2

theorem char_le_iff (a b : Char) : a ≤ b ↔ a.toNat ≤ b.toNat := Iff.rfl

theorem char_toNat_ofNat {n : Nat} (h : n.isValidChar) :
    (Char.ofNat n).toNat = n := by
  unfold Char.ofNat
  rw [dif_pos h]
  rfl

theorem pyLowerChar_idem (c : Char) : pyLowerChar (pyLowerChar c) = pyLowerChar c := by
  unfold pyLowerChar
  by_cases h : 'A' ≤ c ∧ c ≤ 'Z'
  · rw [if_pos h]
    obtain ⟨hA, hZ⟩ := h
    rw [char_le_iff] at hA hZ
    have hAv : ('A').toNat = 65 := rfl
    have hZv : ('Z').toNat = 90 := rfl
    rw [hAv] at hA
    rw [hZv] at hZ
    have hval : (c.toNat + 32).isValidChar := by
      left
      omega
    have heq : (Char.ofNat (c.toNat + 32)).toNat = c.toNat + 32 :=
      char_toNat_ofNat hval
    rw [if_neg]
    intro hcon
    obtain ⟨hc1, hc2⟩ := hcon
    rw [char_le_iff, heq, hZv] at hc2
    omega
  · rw [if_neg h, if_neg h]

theorem pyLower_idem (s : Str) : pyLower (pyLower s) = pyLower s := by
  unfold pyLower
  rw [List.map_map]
  exact List.map_congr_left (fun c _ => pyLowerChar_idem c)

theorem char_eq_of_toNat {c d : Char} (h : c.toNat = d.toNat) : c = d := by
  have h2 := congrArg Char.ofNat h
  rwa [Char.ofNat_toNat, Char.ofNat_toNat] at h2

theorem char_ne_of_toNat_ne {c d : Char} (h : ¬ c.toNat = d.toNat) : ¬ c = d :=
  fun he => h (he ▸ rfl)

/-! ### The percent-coding round trip `unquote_plus ∘ quote_plus = id` -/

theorem percentDecode_cons_ne (c : Char) (h : ¬ c = '%') (rest : Str) :
    percentDecode (c :: rest) = c.toNat :: percentDecode rest := by
  rw [percentDecode.eq_def]
  split
  · rename_i heq
    exact absurd heq (by simp)
  · rename_i heq
    rw [List.cons.injEq] at heq
    exact absurd heq.1 h
  · rename_i heq
    rw [List.cons.injEq] at heq
    exact absurd heq.1 h
  · rename_i heq
    rw [List.cons.injEq] at heq
    rw [← heq.1, ← heq.2]

theorem percentDecode_pct (c1 c2 : Char) (rest : Str) (hi lo : Nat)
    (h1 : hexVal c1 = some hi) (h2 : hexVal c2 = some lo) :
    percentDecode ('%' :: c1 :: c2 :: rest) =
      (16 * hi + lo) :: percentDecode rest := by
  simp only [percentDecode, h1, h2]

/-- Decoding inverts encoding one character at a time (the encoder only
produces valid sequences, because `Char` excludes surrogates). -/
theorem utf8DecodeReplace_encodeChar (c : Char) (bs : List Nat) :
    utf8DecodeReplace (utf8EncodeChar c ++ bs) = c :: utf8DecodeReplace bs := by
  have hv : Nat.isValidChar c.toNat := c.valid
  rw [Nat.isValidChar] at hv
  simp only [utf8EncodeChar]
  by_cases h1 : c.toNat < 0x80
  · rw [if_pos h1]
    simp only [List.cons_append, List.nil_append]
    rw [utf8DecodeReplace.eq_def]
    simp only []
    rw [if_pos h1, Char.ofNat_toNat]
  · rw [if_neg h1]
    by_cases h2 : c.toNat < 0x800
    · rw [if_pos h2]
      simp only [List.cons_append, List.nil_append]
      rw [utf8DecodeReplace.eq_def]
      simp only []
      rw [if_neg (by omega), if_pos (by constructor <;> omega :
          0xC2 ≤ 0xC0 + c.toNat / 64 ∧ 0xC0 + c.toNat / 64 ≤ 0xDF)]
      rw [if_pos (by constructor <;> omega :
          0x80 ≤ 0x80 + c.toNat % 64 ∧ 0x80 + c.toNat % 64 ≤ 0xBF)]
      have harith : (0xC0 + c.toNat / 64 - 0xC0) * 64 + (0x80 + c.toNat % 64 - 0x80)
          = c.toNat := by omega
      rw [harith, Char.ofNat_toNat]
    · rw [if_neg h2]
      by_cases h3 : c.toNat < 0x10000
      · rw [if_pos h3]
        simp only [List.cons_append, List.nil_append]
        rw [utf8DecodeReplace.eq_def]
        simp only []
        rw [if_neg (by omega), if_neg (by omega), if_pos (by constructor <;> omega :
            0xE0 ≤ 0xE0 + c.toNat / 4096 ∧ 0xE0 + c.toNat / 4096 ≤ 0xEF)]
        rw [if_pos ?hcond]
        case hcond =>
          constructor
          · by_cases he : 0xE0 + c.toNat / 4096 = 0xE0
            · rw [if_pos he]
              omega
            · rw [if_neg he]
              omega
          · by_cases he : 0xE0 + c.toNat / 4096 = 0xED
            · rw [if_pos he]
              omega
            · rw [if_neg he]
              omega
        rw [if_pos (by constructor <;> omega :
            0x80 ≤ 0x80 + c.toNat % 64 ∧ 0x80 + c.toNat % 64 ≤ 0xBF)]
        have harith : (0xE0 + c.toNat / 4096 - 0xE0) * 4096 +
            (0x80 + c.toNat / 64 % 64 - 0x80) * 64 +
            (0x80 + c.toNat % 64 - 0x80) = c.toNat := by omega
        rw [harith, Char.ofNat_toNat]
      · rw [if_neg h3]
        simp only [List.cons_append, List.nil_append]
        rw [utf8DecodeReplace.eq_def]
        simp only []
        rw [if_neg (by omega), if_neg (by omega), if_neg (by omega),
          if_pos (by constructor <;> omega :
            0xF0 ≤ 0xF0 + c.toNat / 262144 ∧ 0xF0 + c.toNat / 262144 ≤ 0xF4)]
        rw [if_pos ?hcond2]
        case hcond2 =>
          constructor
          · by_cases he : 0xF0 + c.toNat / 262144 = 0xF0
            · rw [if_pos he]
              omega
            · rw [if_neg he]
              omega
          · by_cases he : 0xF0 + c.toNat / 262144 = 0xF4
            · rw [if_pos he]
              omega
            · rw [if_neg he]
              omega
        rw [if_pos (by constructor <;> omega :
            0x80 ≤ 0x80 + c.toNat / 64 % 64 ∧ 0x80 + c.toNat / 64 % 64 ≤ 0xBF)]
        rw [if_pos (by constructor <;> omega :
            0x80 ≤ 0x80 + c.toNat % 64 ∧ 0x80 + c.toNat % 64 ≤ 0xBF)]
        have harith : (0xF0 + c.toNat / 262144 - 0xF0) * 262144 +
            (0x80 + c.toNat / 4096 % 64 - 0x80) * 4096 +
            (0x80 + c.toNat / 64 % 64 - 0x80) * 64 + (0x80 + c.toNat % 64 - 0x80)
            = c.toNat := by omega
        rw [harith, Char.ofNat_toNat]

theorem utf8Decode_utf8Encode : ∀ (k : Str),
    utf8DecodeReplace (utf8Encode k) = k
  | [] => rfl
  | c :: k => by
      show utf8DecodeReplace (((c :: k).map utf8EncodeChar).flatten) = c :: k
      rw [List.map_cons, List.flatten_cons, utf8DecodeReplace_encodeChar]
      rw [show ((k.map utf8EncodeChar).flatten) = utf8Encode k from rfl,
        utf8Decode_utf8Encode k]

theorem mem_utf8EncodeChar_lt (c : Char) : ∀ b ∈ utf8EncodeChar c, b < 256 := by
  have hv : Nat.isValidChar c.toNat := c.valid
  rw [Nat.isValidChar] at hv
  intro b hb
  simp only [utf8EncodeChar] at hb
  split_ifs at hb
  all_goals simp only [List.mem_cons, List.not_mem_nil, or_false] at hb
  · omega
  · rcases hb with hb | hb <;> omega
  · rcases hb with hb | hb | hb <;> omega
  · rcases hb with hb | hb | hb | hb <;> omega

theorem mem_utf8Encode_lt {s : Str} {b : Nat} (h : b ∈ utf8Encode s) : b < 256 := by
  rw [utf8Encode, List.mem_flatten] at h
  obtain ⟨l, hl, hb⟩ := h
  rw [List.mem_map] at hl
  obtain ⟨c, _, rfl⟩ := hl
  exact mem_utf8EncodeChar_lt c b hb

/-- Byte 32 only arises from an actual space character. -/
theorem mem_utf8EncodeChar_32 {c : Char} (h : 32 ∈ utf8EncodeChar c) : c = ' ' := by
  have hv : Nat.isValidChar c.toNat := c.valid
  rw [Nat.isValidChar] at hv
  simp only [utf8EncodeChar] at h
  split_ifs at h
  all_goals simp only [List.mem_cons, List.not_mem_nil, or_false] at h
  · exact char_eq_of_toNat h.symm
  · rcases h with h | h <;> omega
  · rcases h with h | h | h <;> omega
  · rcases h with h | h | h | h <;> omega

theorem mem_utf8Encode_32 {s : Str} (h : 32 ∈ utf8Encode s) : ' ' ∈ s := by
  rw [utf8Encode, List.mem_flatten] at h
  obtain ⟨l, hl, hb⟩ := h
  rw [List.mem_map] at hl
  obtain ⟨c, hc, rfl⟩ := hl
  rw [← mem_utf8EncodeChar_32 hb]
  exact hc

theorem hexDigitUpper_facts {n : Nat} (h : n < 16) :
    hexVal (hexDigitUpper n) = some n ∧
    isAlwaysSafeByte (hexDigitUpper n).toNat = true ∧
    ¬ hexDigitUpper n = '%' := by
  interval_cases n <;> exact ⟨rfl, rfl, by decide⟩

theorem isAlwaysSafeByte_lt {b : Nat} (h : isAlwaysSafeByte b = true) : b < 128 := by
  simp only [isAlwaysSafeByte, Bool.or_eq_true, Bool.and_eq_true,
    decide_eq_true_eq, beq_iff_eq] at h
  omega

/-- Every character emitted by `quoteByte` is always-safe, a `%`, or the
literal space kept by `safe=' '`. -/
theorem mem_quoteByte {ss : Bool} {b : Nat} {c : Char} (hb : b < 256)
    (h : c ∈ quoteByte ss b) :
    isAlwaysSafeByte c.toNat = true ∨ c = '%' ∨ (c = ' ' ∧ ss = true) := by
  unfold quoteByte at h
  split_ifs at h with hcond
  · simp only [List.mem_singleton] at h
    subst h
    have hvalid : Nat.isValidChar b := Or.inl (by omega)
    rcases Bool.or_eq_true_iff.mp hcond with hs | hs
    · rw [char_toNat_ofNat hvalid]
      exact Or.inl hs
    · obtain ⟨hss, hb32⟩ := Bool.and_eq_true_iff.mp hs
      have hb32' : b = 32 := by simpa using hb32
      subst hb32'
      exact Or.inr (Or.inr ⟨by decide, hss⟩)
  · simp only [List.mem_cons, List.not_mem_nil, or_false] at h
    rcases h with rfl | rfl | rfl
    · exact Or.inr (Or.inl rfl)
    · exact Or.inl (hexDigitUpper_facts (by omega : b / 16 < 16)).2.1
    · exact Or.inl (hexDigitUpper_facts (by omega : b % 16 < 16)).2.1

theorem mem_pyQuote {ss : Bool} {s : Str} {c : Char} (h : c ∈ pyQuote ss s) :
    isAlwaysSafeByte c.toNat = true ∨ c = '%' ∨ (c = ' ' ∧ ss = true) := by
  rw [pyQuote, List.mem_flatten] at h
  obtain ⟨l, hl, hc⟩ := h
  rw [List.mem_map] at hl
  obtain ⟨b, hb, rfl⟩ := hl
  exact mem_quoteByte (mem_utf8Encode_lt hb) hc

theorem mem_quote_plus {s : Str} {c : Char} (h : c ∈ quote_plus s) :
    isAlwaysSafeByte c.toNat = true ∨ c = '%' ∨ c = '+' := by
  unfold quote_plus at h
  split_ifs at h with hsp
  · rw [List.mem_map] at h
    obtain ⟨d, hd, rfl⟩ := h
    by_cases hd' : (d == ' ') = true
    · rw [if_pos hd']
      exact Or.inr (Or.inr rfl)
    · rw [if_neg hd']
      rcases mem_pyQuote hd with h | h | ⟨h, _⟩
      · exact Or.inl h
      · exact Or.inr (Or.inl h)
      · exact absurd (by rw [h]; rfl : (d == ' ') = true) hd'
  · rcases mem_pyQuote h with h | h | ⟨_, h⟩
    · exact Or.inl h
    · exact Or.inr (Or.inl h)
    · cases h

theorem intercalate_cons_cons (s x y : Str) (zs : List Str) :
    List.intercalate s (x :: y :: zs) = x ++ s ++ List.intercalate s (y :: zs) := by
  simp [List.intercalate]

theorem intercalate_single (s x : Str) : List.intercalate s [x] = x := by
  simp [List.intercalate]

theorem mem_intercalate_sep {sep : Char} :
    ∀ (segs : List Str) (c : Char), c ∈ List.intercalate [sep] segs →
      c = sep ∨ ∃ seg ∈ segs, c ∈ seg
  | [], c, h => by simp [List.intercalate] at h
  | [x], c, h => by
      rw [intercalate_single] at h
      exact Or.inr ⟨x, List.mem_cons_self x [], h⟩
  | x :: y :: zs, c, h => by
      rw [intercalate_cons_cons, List.append_assoc] at h
      rcases List.mem_append.mp h with h1 | h1
      · exact Or.inr ⟨x, by simp, h1⟩
      · rcases List.mem_append.mp h1 with h2 | h2
        · simp only [List.mem_singleton] at h2
          exact Or.inl h2
        · rcases mem_intercalate_sep (y :: zs) c h2 with h3 | ⟨seg, hs, hc⟩
          · exact Or.inl h3
          · exact Or.inr ⟨seg, List.mem_cons_of_mem x hs, hc⟩

/-- Classification of every character of a `urlencode` output. -/
theorem mem_urlencode {P : List (Str × Str)} {c : Char} (h : c ∈ urlencode P) :
    isAlwaysSafeByte c.toNat = true ∨ c = '%' ∨ c = '+' ∨ c = '&' ∨ c = '=' := by
  rw [urlencode] at h
  rcases mem_intercalate_sep (P.map (fun kv => quote_plus kv.1 ++ '=' :: quote_plus kv.2))
      c h with h | ⟨seg, hs, hc⟩
  · exact Or.inr (Or.inr (Or.inr (Or.inl h)))
  · rw [List.mem_map] at hs
    obtain ⟨kv, _, rfl⟩ := hs
    rcases List.mem_append.mp hc with hc | hc
    · rcases mem_quote_plus hc with h | h | h
      · exact Or.inl h
      · exact Or.inr (Or.inl h)
      · exact Or.inr (Or.inr (Or.inl h))
    · rcases List.mem_cons.mp hc with rfl | hc
      · exact Or.inr (Or.inr (Or.inr (Or.inr rfl)))
      · rcases mem_quote_plus hc with h | h | h
        · exact Or.inl h
        · exact Or.inr (Or.inl h)
        · exact Or.inr (Or.inr (Or.inl h))

/-- The `+`-to-space map that `parse_qsl` applies to each name and value. -/
def plusToSpace (s : Str) : Str := s.map (fun c => if c == '+' then ' ' else c)

theorem isAlwaysSafeByte_ne_plus {c : Char} (h : isAlwaysSafeByte c.toNat = true) :
    ¬ c = '+' := by
  intro he
  subst he
  exact absurd h (by decide)

/-- Undoing the space-to-`+` substitution recovers `quote(k, safe=' ')`. -/
theorem plusToSpace_quote_plus (k : Str) : plusToSpace (quote_plus k) = pyQuote true k := by
  unfold quote_plus
  split_ifs with hsp
  · rw [plusToSpace, List.map_map]
    conv_rhs => rw [← List.map_id (pyQuote true k)]
    apply List.map_congr_left
    intro c hc
    by_cases hc' : (c == ' ') = true
    · have hc'' : c = ' ' := by simpa using hc'
      simp only [Function.comp_apply, hc', if_pos, id_eq]
      rw [if_pos (by rfl : (('+' : Char) == '+') = true), hc'']
    · have hcs : (c == ' ') = false := by simpa using hc'
      have hcp : (c == '+') = false := by
        rcases mem_pyQuote hc with h | h | ⟨h, _⟩
        · simpa using isAlwaysSafeByte_ne_plus h
        · subst h
          rfl
        · rw [h] at hcs
          simp at hcs
      simp only [Function.comp_apply, hcs, hcp, Bool.false_eq_true, if_false, id_eq]
  · have hb32 : ∀ b ∈ utf8Encode k, ¬ b = 32 :=
      fun b hb hbeq => hsp (mem_utf8Encode_32 (hbeq ▸ hb))
    have hqb : pyQuote false k = pyQuote true k := by
      unfold pyQuote
      congr 1
      apply List.map_congr_left
      intro b hb
      unfold quoteByte
      have h32 : (b == 32) = false := by simpa using hb32 b hb
      rw [h32]
      simp
    rw [← hqb, plusToSpace]
    conv_rhs => rw [← List.map_id (pyQuote false k)]
    apply List.map_congr_left
    intro c hc
    rcases mem_pyQuote hc with h | h | ⟨_, h⟩
    · simp only [id_eq]
      rw [if_neg (by simpa using isAlwaysSafeByte_ne_plus h)]
    · subst h
      rfl
    · cases h

theorem pyQuote_cons (ss : Bool) (c : Char) (k : Str) :
    pyQuote ss (c :: k) =
      ((utf8EncodeChar c).map (quoteByte ss)).flatten ++ pyQuote ss k := by
  unfold pyQuote utf8Encode
  rw [List.map_cons, List.flatten_cons, List.map_append, List.flatten_append]

theorem utf8EncodeChar_ascii_or (c : Char) :
    utf8EncodeChar c = [c.toNat] ∨ ∃ b ∈ utf8EncodeChar c, 128 ≤ b := by
  unfold utf8EncodeChar
  by_cases h : c.toNat < 128
  · rw [if_pos h]
    exact Or.inl rfl
  · rw [if_neg h]
    split_ifs with h2 h3
    · exact Or.inr ⟨192 + c.toNat / 64, by simp, by omega⟩
    · exact Or.inr ⟨224 + c.toNat / 4096, by simp, by omega⟩
    · exact Or.inr ⟨240 + c.toNat / 262144, by simp, by omega⟩

theorem pct_mem_quoteByte_unsafe {ss : Bool} {b : Nat}
    (hsafe : isAlwaysSafeByte b = false) (h32 : ¬ b = 32) :
    '%' ∈ quoteByte ss b := by
  unfold quoteByte
  rw [if_neg]
  · exact List.mem_cons_self _ _
  · intro hcond
    rcases Bool.or_eq_true_iff.mp hcond with hs | hs
    · rw [hsafe] at hs
      cases hs
    · exact h32 (by simpa using (Bool.and_eq_true_iff.mp hs).2)

/-- If quoting introduced no `%`, the string was all-safe ASCII and quoting
was the identity. -/
theorem pyQuote_no_pct : ∀ (k : Str), '%' ∉ pyQuote true k → pyQuote true k = k
  | [], _ => rfl
  | c :: k, h => by
      rw [pyQuote_cons] at h ⊢
      have h1 : '%' ∉ ((utf8EncodeChar c).map (quoteByte true)).flatten :=
        fun hm => h (List.mem_append.mpr (Or.inl hm))
      have h2 : '%' ∉ pyQuote true k :=
        fun hm => h (List.mem_append.mpr (Or.inr hm))
      have henc : utf8EncodeChar c = [c.toNat] := by
        rcases utf8EncodeChar_ascii_or c with he | ⟨b, hb, hb128⟩
        · exact he
        · exfalso
          apply h1
          rw [List.mem_flatten]
          refine ⟨quoteByte true b, List.mem_map_of_mem _ hb, ?_⟩
          exact pct_mem_quoteByte_unsafe
            (by rcases hs : isAlwaysSafeByte b with _ | _
                · rfl
                · exact absurd (isAlwaysSafeByte_lt hs) (by omega))
            (by omega)
      rw [henc] at h1 ⊢
      simp only [List.map_cons, List.map_nil, List.flatten_cons, List.flatten_nil,
        List.append_nil] at h1 ⊢
      have hcond : (isAlwaysSafeByte c.toNat || (true && c.toNat == 32)) = true := by
        by_contra hc
        apply h1
        unfold quoteByte
        rw [if_neg hc]
        exact List.mem_cons_self _ _
      unfold quoteByte
      rw [if_pos hcond, Char.ofNat_toNat, List.cons_append, List.nil_append,
        pyQuote_no_pct k h2]

theorem splitBy_loop_ascii (R : Char → Char → Bool)
    (hR : ∀ x y, isAsciiChar x = true → isAsciiChar y = true → R x y = true) :
    ∀ (as : Str) (ag : Char) (g : Str) (gs : List (List Char)),
      isAsciiChar ag = true → (∀ x ∈ as, isAsciiChar x = true) →
      List.splitBy.loop R as ag g gs = gs.reverse ++ [g.reverse ++ ag :: as]
  | [], ag, g, gs, _, _ => by
      rw [List.splitBy.loop]
      simp
  | a :: as, ag, g, gs, hag, has => by
      rw [List.splitBy.loop]
      rw [hR ag a hag (has a (List.mem_cons_self a as))]
      rw [splitBy_loop_ascii R hR as a (ag :: g) gs
        (has a (List.mem_cons_self a as))
        (fun x hx => has x (List.mem_cons_of_mem a hx))]
      simp

theorem splitBy_ascii_single (R : Char → Char → Bool)
    (hR : ∀ x y, isAsciiChar x = true → isAsciiChar y = true → R x y = true)
    (s : Str) (hne : s ≠ []) (h : ∀ x ∈ s, isAsciiChar x = true) :
    s.splitBy R = [s] := by
  cases s with
  | nil => exact absurd rfl hne
  | cons a as =>
      rw [List.splitBy]
      rw [splitBy_loop_ascii R hR as a [] []
        (h a (List.mem_cons_self a as))
        (fun x hx => h x (List.mem_cons_of_mem a hx))]
      simp

theorem percentDecode_quoteBytes (ss : Bool) : ∀ (bs : List Nat),
    (∀ b ∈ bs, b < 256) →
    percentDecode ((bs.map (quoteByte ss)).flatten) = bs
  | [], _ => rfl
  | b :: bs, h => by
      rw [List.map_cons, List.flatten_cons]
      have hb := h b (List.mem_cons_self b bs)
      have hrest := fun x hx => h x (List.mem_cons_of_mem b hx)
      by_cases hcond : (isAlwaysSafeByte b || (ss && b == 32)) = true
      · rw [show quoteByte ss b = [Char.ofNat b] from by
          unfold quoteByte
          rw [if_pos hcond]]
        rw [List.cons_append, List.nil_append, percentDecode_cons_ne]
        · rw [char_toNat_ofNat (Or.inl (by omega)),
            percentDecode_quoteBytes ss bs hrest]
        · intro he
          have hb37 : b = 37 := by
            have h2 := congrArg Char.toNat he
            rwa [char_toNat_ofNat (Or.inl (by omega))] at h2
          subst hb37
          rcases Bool.or_eq_true_iff.mp hcond with hs | hs
          · exact absurd hs (by decide)
          · exact absurd (Bool.and_eq_true_iff.mp hs).2 (by decide)
      · rw [show quoteByte ss b = ['%', hexDigitUpper (b / 16), hexDigitUpper (b % 16)]
            from by
          unfold quoteByte
          rw [if_neg hcond]]
        rw [List.cons_append, List.cons_append, List.cons_append, List.nil_append,
          percentDecode_pct _ _ _ (b / 16) (b % 16)
            (hexDigitUpper_facts (by omega : b / 16 < 16)).1
            (hexDigitUpper_facts (by omega : b % 16 < 16)).1]
        rw [show 16 * (b / 16) + b % 16 = b from by omega,
          percentDecode_quoteBytes ss bs hrest]

theorem percentDecode_pyQuote (ss : Bool) (k : Str) :
    percentDecode (pyQuote ss k) = utf8Encode k := by
  unfold pyQuote
  exact percentDecode_quoteBytes ss (utf8Encode k) (fun b hb => mem_utf8Encode_lt hb)

/-- The central per-string round trip: `unquote_plus (quote_plus k) = k`. -/
theorem unquote_plusToSpace_quote_plus (k : Str) :
    unquote (plusToSpace (quote_plus k)) = k := by
  rw [plusToSpace_quote_plus]
  unfold unquote
  split_ifs with hp
  · have hascii : ∀ c ∈ pyQuote true k, isAsciiChar c = true := by
      intro c hc
      rcases mem_pyQuote hc with h | h | ⟨h, _⟩
      · unfold isAsciiChar
        simpa using isAlwaysSafeByte_lt h
      · subst h
        rfl
      · subst h
        rfl
    have hne : pyQuote true k ≠ [] := by
      intro h0
      rw [h0] at hp
      exact (List.not_mem_nil '%') hp
    rw [splitBy_ascii_single _ (fun x y hx hy => by rw [hx, hy]; rfl) _ hne hascii]
    rw [List.map_cons, List.map_nil, if_pos (List.all_eq_true.mpr hascii),
      List.flatten_cons, List.flatten_nil, List.append_nil,
      percentDecode_pyQuote, utf8Decode_utf8Encode]
  · exact pyQuote_no_pct k hp

/-! ### `parse_qsl (urlencode P) = P` -/

theorem splitSep_no_sep (sep : Char) : ∀ (s : Str), sep ∉ s → splitSep sep s = [s]
  | [], _ => rfl
  | c :: s, h => by
      have hc : ¬ (c == sep) = true := by
        simp only [beq_iff_eq]
        intro he
        exact h (he ▸ List.mem_cons_self c s)
      simp only [splitSep]
      rw [if_neg hc, splitSep_no_sep sep s (fun hm => h (List.mem_cons_of_mem c hm))]
      rfl

theorem splitSep_append_sep (sep : Char) : ∀ (x t : Str), sep ∉ x →
    splitSep sep (x ++ sep :: t) = x :: splitSep sep t
  | [], t, _ => by
      simp only [List.nil_append, splitSep]
      rw [if_pos (beq_self_eq_true sep)]
  | c :: x, t, h => by
      have hc : ¬ (c == sep) = true := by
        simp only [beq_iff_eq]
        intro he
        exact h (he ▸ List.mem_cons_self c x)
      simp only [List.cons_append, splitSep, List.append_eq]
      rw [if_neg hc,
        splitSep_append_sep sep x t (fun hm => h (List.mem_cons_of_mem c hm))]
      rfl

theorem splitSep_intercalate (sep : Char) : ∀ (segs : List Str), segs ≠ [] →
    (∀ seg ∈ segs, sep ∉ seg) →
    splitSep sep (List.intercalate [sep] segs) = segs
  | [], h, _ => absurd rfl h
  | [x], _, hs => by
      rw [intercalate_single]
      exact splitSep_no_sep sep x (hs x (by simp))
  | x :: y :: zs, _, hs => by
      rw [intercalate_cons_cons, List.append_assoc, List.singleton_append,
        splitSep_append_sep sep x _ (hs x (by simp)),
        splitSep_intercalate sep (y :: zs) (by simp)
          (fun seg hseg => hs seg (List.mem_cons_of_mem x hseg))]

theorem findIdx_eq_append {p : Char → Bool} :
    ∀ (l : Str) (c0 : Char) (r : Str) (i : Nat), (∀ c ∈ l, p c = false) →
      p c0 = true →
      List.findIdx? p (l ++ c0 :: r) i = some (i + l.length)
  | [], c0, r, i, _, hc => by
      rw [List.nil_append, List.findIdx?_cons, if_pos hc]
      simp
  | c :: l, c0, r, i, hl, hc => by
      rw [List.cons_append, List.findIdx?_cons,
        if_neg (by simp [hl c (List.mem_cons_self c l)]),
        findIdx_eq_append l c0 r (i + 1)
          (fun x hx => hl x (List.mem_cons_of_mem c hx)) hc]
      congr 1
      simp
      omega

theorem quote_plus_no_amp {s : Str} : '&' ∉ quote_plus s := by
  intro h
  rcases mem_quote_plus h with h | h | h
  · exact absurd h (by decide)
  · exact absurd h (by decide)
  · exact absurd h (by decide)

theorem quote_plus_no_eq {s : Str} : '=' ∉ quote_plus s := by
  intro h
  rcases mem_quote_plus h with h | h | h
  · exact absurd h (by decide)
  · exact absurd h (by decide)
  · exact absurd h (by decide)

/-- One `name=value` segment parses back to the original pair. -/
theorem parse_qsl_segment (kv : Str × Str) :
    (if quote_plus kv.1 ++ '=' :: quote_plus kv.2 = [] then (none : Option (Str × Str))
     else
       match (quote_plus kv.1 ++ '=' :: quote_plus kv.2).findIdx?
           (fun c => c == '=') with
       | some i =>
           some (unquote (((quote_plus kv.1 ++ '=' :: quote_plus kv.2).take i).map
                   (fun c => if c == '+' then ' ' else c)),
                 unquote (((quote_plus kv.1 ++ '=' :: quote_plus kv.2).drop (i + 1)).map
                   (fun c => if c == '+' then ' ' else c)))
       | none =>
           some (unquote ((quote_plus kv.1 ++ '=' :: quote_plus kv.2).map
                   (fun c => if c == '+' then ' ' else c)), []))
      = some kv := by
  obtain ⟨k, v⟩ := kv
  simp only []
  rw [if_neg (by simp)]
  have hfind : List.findIdx? (fun c => c == '=')
      (quote_plus k ++ '=' :: quote_plus v) 0 = some (0 + (quote_plus k).length) := by
    apply findIdx_eq_append
    · intro c hcm
      simp only [beq_eq_false_iff_ne, ne_eq]
      intro he
      exact quote_plus_no_eq (he ▸ hcm)
    · rfl
  rw [Nat.zero_add] at hfind
  rw [hfind]
  simp only []
  rw [List.take_left, List.append_cons, ← (by simp :
      (quote_plus k ++ ['=']).length = (quote_plus k).length + 1), List.drop_left]
  rw [show List.map (fun c => if c == '+' then ' ' else c) (quote_plus k)
      = plusToSpace (quote_plus k) from rfl]
  rw [show List.map (fun c => if c == '+' then ' ' else c) (quote_plus v)
      = plusToSpace (quote_plus v) from rfl]
  rw [unquote_plusToSpace_quote_plus, unquote_plusToSpace_quote_plus]

theorem parse_qsl_urlencode (P : List (Str × Str)) : parse_qsl (urlencode P) = P := by
  cases P with
  | nil => rfl
  | cons kv0 P' =>
      have hqs_ne : urlencode (kv0 :: P') ≠ [] := by
        rw [urlencode]
        cases P' with
        | nil =>
            rw [List.map_cons, List.map_nil, intercalate_single]
            simp
        | cons kv1 P'' =>
            rw [List.map_cons, List.map_cons, intercalate_cons_cons]
            simp
      rw [parse_qsl]
      rw [if_neg hqs_ne]
      rw [show urlencode (kv0 :: P')
          = List.intercalate ['&'] ((kv0 :: P').map
              (fun kv => quote_plus kv.1 ++ '=' :: quote_plus kv.2)) from rfl]
      rw [splitSep_intercalate '&' _ (by simp)
        (by
          intro seg hseg hamp
          rw [List.mem_map] at hseg
          obtain ⟨kv, _, rfl⟩ := hseg
          rcases List.mem_append.mp hamp with h | h
          · exact quote_plus_no_amp h
          · rcases List.mem_cons.mp h with h | h
            · exact absurd h (by decide)
            · exact quote_plus_no_amp h)]
      rw [List.filterMap_map]
      have hgen : ∀ (Q : List (Str × Str)),
          Q.filterMap ((fun nv =>
            if nv = [] then (none : Option (Str × Str))
            else
              match nv.findIdx? (fun c => c == '=') with
              | some i =>
                  some (unquote ((nv.take i).map (fun c => if c == '+' then ' ' else c)),
                        unquote ((nv.drop (i + 1)).map (fun c => if c == '+' then ' ' else c)))
              | none =>
                  some (unquote (nv.map (fun c => if c == '+' then ' ' else c)), [])) ∘
            (fun kv => quote_plus kv.1 ++ '=' :: quote_plus kv.2)) = Q := by
        intro Q
        induction Q with
        | nil => rfl
        | cons kv Q ih =>
            rw [List.filterMap_cons]
            rw [Function.comp_apply, parse_qsl_segment kv, ih]
      exact hgen (kv0 :: P')

/-! ### The query, netloc and path computations of `normalize_url`, isolated -/

/-- The query rebuilt by `normalize_url` from a raw query string. -/
def queryOf (qs : Str) (kqp : Option (List Str)) : Str :=
  match kqp with
  | none => []
  | some keeps =>
      if keeps = [] then []
      else
        let params := (parse_qsl qs).filter (fun kv => keeps.contains kv.1)
        if params ≠ [] then urlencode params else []

/-- Applying the query filter-and-reencode a second time changes nothing. -/
theorem queryOf_stable (qs : Str) (kqp : Option (List Str)) :
    queryOf (queryOf qs kqp) kqp = queryOf qs kqp := by
  unfold queryOf
  cases kqp with
  | none => rfl
  | some keeps =>
      simp only []
      by_cases hk : keeps = []
      · rw [if_pos hk, if_pos hk]
      · rw [if_neg hk, if_neg hk]
        by_cases hpne : (parse_qsl qs).filter (fun kv => keeps.contains kv.1) ≠ []
        · rw [if_pos hpne, parse_qsl_urlencode,
            List.filter_eq_self.mpr (fun kv hkv => by
              have h2 := List.of_mem_filter hkv
              exact h2),
            if_pos hpne]
        · rw [if_neg hpne]
          rw [show parse_qsl [] = [] from rfl, List.filter_nil]
          simp

/-- The path rebuilt by `normalize_url`. -/
def normPath (u : Str) : Str :=
  let path0 := if (urlparse u).path = [] then ['/'] else (urlparse u).path
  let path1 := collapseSlashes path0
  if path1 ≠ ['/'] ∧ path1.getLast? = some '/' then rstripSlashes path1 else path1

theorem normalize_url_eq (u : Str) (kqp : Option (List Str)) :
    normalize_url u kqp =
      urlunparse (r"https").toList (pyLower (urlparse u).netloc) (normPath u) []
        (queryOf (urlparse u).query kqp) [] := rfl

theorem rstripSlashes_ne_nil : ∀ (s : Str), NoDupSlash s → ¬ s = ['/'] → s ≠ [] →
    rstripSlashes s ≠ []
  | [], _, _, hne => absurd rfl hne
  | a :: t, hnds, hone, _ => by
      intro h0
      have hall : ∀ x ∈ a :: t, x = '/' := by
        intro x hx
        have h1 := congrArg List.reverse h0
        rw [rstripSlashes, List.reverse_reverse, List.reverse_nil] at h1
        have h2 := List.dropWhile_eq_nil_iff.mp h1 x (List.mem_reverse.mpr hx)
        simpa using h2
      cases t with
      | nil => exact hone (by rw [hall a (List.mem_cons_self a [])])
      | cons b t2 =>
          exact (List.chain'_cons.mp hnds).1
            ⟨hall a (List.mem_cons_self a _),
             hall b (List.mem_cons_of_mem a (List.mem_cons_self b t2))⟩

/-- `normPath` is nonempty, slash-collapsed, and does not end in `/` unless
it is exactly `/`. -/
theorem normPath_spec (u : Str) :
    normPath u ≠ [] ∧ NoDupSlash (normPath u) ∧
      (normPath u = ['/'] ∨ ¬ (normPath u).getLast? = some '/') := by
  unfold normPath
  simp only []
  have hp0ne : (if (urlparse u).path = [] then ['/'] else (urlparse u).path) ≠ [] := by
    split_ifs with h
    · simp
    · exact h
  have hp1ne := collapseSlashes_ne_nil _ hp0ne
  have hp1nds := collapseSlashes_noDupSlash
    (if (urlparse u).path = [] then ['/'] else (urlparse u).path)
  by_cases hc : collapseSlashes (if (urlparse u).path = [] then ['/']
      else (urlparse u).path) ≠ ['/'] ∧
      (collapseSlashes (if (urlparse u).path = [] then ['/']
        else (urlparse u).path)).getLast? = some '/'
  · rw [if_pos hc]
    refine ⟨rstripSlashes_ne_nil _ hp1nds hc.1 hp1ne, ?_, Or.inr ?_⟩
    · exact List.Chain'.prefix hp1nds (rstripSlashes_front _)
    · intro hg
      exact rstripSlashes_getLast _ '/' hg rfl
  · rw [if_neg hc]
    refine ⟨hp1ne, hp1nds, ?_⟩
    by_cases h1 : collapseSlashes (if (urlparse u).path = [] then ['/']
        else (urlparse u).path) = ['/']
    · exact Or.inl h1
    · right
      intro hg
      exact hc ⟨h1, hg⟩

/-! ### Character-level facts about the components of `urlsplit` -/

theorem mem_removeUnsafe_props {s : Str} {c : Char} (h : c ∈ removeUnsafe s) :
    ¬ c.toNat = 9 ∧ ¬ c.toNat = 13 ∧ ¬ c.toNat = 10 := by
  have h2 := List.of_mem_filter h
  simp only [Bool.and_eq_true, bne_iff_ne, ne_eq] at h2
  obtain ⟨⟨h9, h13⟩, h10⟩ := h2
  refine ⟨?_, ?_, ?_⟩
  · intro he
    exact h9 (char_eq_of_toNat (by rw [he]; rfl))
  · intro he
    exact h13 (char_eq_of_toNat (by rw [he]; rfl))
  · intro he
    exact h10 (char_eq_of_toNat (by rw [he]; rfl))

theorem mem_splitScheme_snd {u : Str} {c : Char} (h : c ∈ (splitScheme u).2) :
    c ∈ u := by
  unfold splitScheme at h
  rcases hf : u.findIdx? (fun c => c == ':') with _ | i
  · rw [hf] at h
    exact h
  · rw [hf] at h
    simp only [] at h
    split_ifs at h
    · exact List.drop_subset _ _ h
    · exact h

theorem mem_splitOnce_fst {c0 : Char} {s : Str} {c : Char}
    (h : c ∈ (splitOnce c0 s).1) : c ∈ s ∧ ¬ c = c0 := by
  unfold splitOnce at h
  refine ⟨(List.takeWhile_prefix _).sublist.mem h, ?_⟩
  have h2 := List.mem_takeWhile_imp h
  simpa using h2

theorem mem_splitOnce_snd {c0 : Char} {s : Str} {c : Char}
    (h : c ∈ (splitOnce c0 s).2) : c ∈ s := by
  unfold splitOnce at h
  exact (List.dropWhile_suffix _).sublist.mem (List.drop_subset _ _ h)

theorem mem_fragPart {w : Str} {c : Char}
    (h : c ∈ (if '#' ∈ w then splitOnce '#' w else (w, [])).1) :
    c ∈ w ∧ ¬ c = '#' := by
  split_ifs at h with hcond
  · exact mem_splitOnce_fst h
  · exact ⟨h, fun he => hcond (he ▸ h)⟩

theorem mem_queryPart {w : Str} {c : Char}
    (h : c ∈ (if '?' ∈ w then splitOnce '?' w else (w, [])).1) :
    c ∈ w ∧ ¬ c = '?' := by
  split_ifs at h with hcond
  · exact mem_splitOnce_fst h
  · exact ⟨h, fun he => hcond (he ▸ h)⟩

theorem mem_netlocPart {w : Str} {c : Char}
    (h : c ∈ (if w.take 2 = ['/', '/'] then splitNetloc w else ([], w)).1) :
    c ∈ w ∧ isNetlocDelim c = false := by
  split_ifs at h with hcond
  · unfold splitNetloc at h
    refine ⟨List.drop_subset _ _ ((List.takeWhile_prefix _).sublist.mem h), ?_⟩
    have h2 := List.mem_takeWhile_imp h
    simpa using h2
  · cases h

theorem mem_netlocRest {w : Str} {c : Char}
    (h : c ∈ (if w.take 2 = ['/', '/'] then splitNetloc w else ([], w)).2) :
    c ∈ w := by
  split_ifs at h with hcond
  · unfold splitNetloc at h
    exact List.drop_subset _ _ ((List.dropWhile_suffix _).sublist.mem h)
  · exact h

/-- Every character of `urlsplit(u).netloc` comes from the cleaned URL and is
none of `/?#`. -/
theorem urlsplit_netloc_spec (u : Str) : ∀ c ∈ (urlsplit u).netloc,
    c ∈ removeUnsafe (lstripC0 u) ∧ isNetlocDelim c = false := by
  intro c hc
  simp only [urlsplit] at hc
  have h2 := mem_netlocPart hc
  exact ⟨mem_splitScheme_snd h2.1, h2.2⟩

/-- Every character of `urlsplit(u).path` comes from the cleaned URL and is
neither `?` nor `#`. -/
theorem urlsplit_path_spec (u : Str) : ∀ c ∈ (urlsplit u).path,
    c ∈ removeUnsafe (lstripC0 u) ∧ ¬ c = '?' ∧ ¬ c = '#' := by
  intro c hc
  simp only [urlsplit] at hc
  have h3 := mem_queryPart hc
  have h4 := mem_fragPart h3.1
  exact ⟨mem_splitScheme_snd (mem_netlocRest h4.1), h3.2, h4.2⟩

theorem mem_splitparams_fst {s : Str} {c : Char} (h : c ∈ (splitparams s).1) :
    c ∈ s := by
  unfold splitparams at h
  split_ifs at h with h1
  · rcases hj : rfindIdx '/' s with _ | j
    · rw [hj] at h
      exact h
    · rw [hj] at h
      simp only [] at h
      rcases hi : findIdxFrom ';' s j with _ | i
      · rw [hi] at h
        exact h
      · rw [hi] at h
        simp only [] at h
        exact List.take_subset _ _ h
  · rcases hi : s.findIdx? (fun x => x == ';') with _ | i
    · rw [hi] at h
      exact h
    · rw [hi] at h
      simp only [] at h
      exact List.take_subset _ _ h

/-- `urlparse` only ever shortens the path of `urlsplit` and copies netloc
and query. -/
theorem urlparse_components (u : Str) :
    (urlparse u).netloc = (urlsplit u).netloc ∧
    (urlparse u).query = (urlsplit u).query ∧
    ∀ c ∈ (urlparse u).path, c ∈ (urlsplit u).path := by
  unfold urlparse
  simp only []
  split_ifs with h
  · exact ⟨rfl, rfl, fun c hc => mem_splitparams_fst hc⟩
  · exact ⟨rfl, rfl, fun c hc => hc⟩

theorem mem_pyLower {n : Str} {c : Char} (h : c ∈ pyLower n) :
    ∃ d ∈ n, c = pyLowerChar d := by
  rw [pyLower, List.mem_map] at h
  obtain ⟨d, hd, he⟩ := h
  exact ⟨d, hd, he.symm⟩

theorem pyLowerChar_cases (c : Char) :
    pyLowerChar c = c ∨
      (97 ≤ (pyLowerChar c).toNat ∧ (pyLowerChar c).toNat ≤ 122) := by
  unfold pyLowerChar
  split_ifs with h
  · right
    obtain ⟨h1, h2⟩ := h
    rw [char_le_iff] at h1 h2
    rw [show ('A').toNat = 65 from rfl] at h1
    rw [show ('Z').toNat = 90 from rfl] at h2
    rw [char_toNat_ofNat (Or.inl (by omega))]
    omega
  · exact Or.inl rfl

theorem isNetlocDelim_false_of_toNat {c : Char} (h47 : ¬ c.toNat = 47)
    (h63 : ¬ c.toNat = 63) (h35 : ¬ c.toNat = 35) : isNetlocDelim c = false := by
  unfold isNetlocDelim
  have e47 : ¬ c = '/' := fun he => h47 (by rw [he]; rfl)
  have e63 : ¬ c = '?' := fun he => h63 (by rw [he]; rfl)
  have e35 : ¬ c = '#' := fun he => h35 (by rw [he]; rfl)
  simp [e47, e63, e35]

/-- The lower-cased netloc still contains no delimiter and no removed
byte. -/
theorem normNetloc_spec (u : Str) : ∀ c ∈ pyLower (urlparse u).netloc,
    isNetlocDelim c = false ∧ ¬ c.toNat = 9 ∧ ¬ c.toNat = 13 ∧ ¬ c.toNat = 10 := by
  intro c hc
  obtain ⟨d, hd, rfl⟩ := mem_pyLower hc
  rw [(urlparse_components u).1] at hd
  have h3 := urlsplit_netloc_spec u d hd
  have h4 := mem_removeUnsafe_props h3.1
  rcases pyLowerChar_cases d with he | ⟨hlo, hhi⟩
  · rw [he]
    exact ⟨h3.2, h4⟩
  · exact ⟨isNetlocDelim_false_of_toNat (by omega) (by omega) (by omega),
      by omega, by omega, by omega⟩

/-- Characters of the normalized path: never `?`, `#`, tab, CR or LF. -/
theorem normPath_chars (u : Str) : ∀ c ∈ normPath u,
    (¬ c = '?' ∧ ¬ c = '#') ∧ ¬ c.toNat = 9 ∧ ¬ c.toNat = 13 ∧ ¬ c.toNat = 10 := by
  intro c hc
  unfold normPath at hc
  simp only [] at hc
  set X := if (urlparse u).path = [] then ['/'] else (urlparse u).path with hX
  have hc1 : c ∈ collapseSlashes X := by
    split_ifs at hc with h
    · exact (rstripSlashes_front _).sublist.mem hc
    · exact hc
  have hc0 := mem_collapseSlashes _ c hc1
  rw [hX] at hc0
  split_ifs at hc0 with h0
  · simp only [List.mem_singleton] at hc0
    subst hc0
    exact ⟨⟨by decide, by decide⟩, by decide, by decide, by decide⟩
  · have h2 := (urlparse_components u).2.2 c hc0
    have h3 := urlsplit_path_spec u c h2
    exact ⟨⟨h3.2.1, h3.2.2⟩, mem_removeUnsafe_props h3.1⟩

theorem urlencode_char_props {P : List (Str × Str)} {c : Char}
    (h : c ∈ urlencode P) :
    ¬ c = '#' ∧ ¬ c = '?' ∧ ¬ c.toNat = 9 ∧ ¬ c.toNat = 13 ∧ ¬ c.toNat = 10 := by
  rcases mem_urlencode h with hs | hs | hs | hs | hs
  · refine ⟨?_, ?_, ?_, ?_, ?_⟩ <;> intro he <;> rw [he] at hs <;>
      exact absurd hs (by decide)
  · subst hs
    exact ⟨by decide, by decide, by decide, by decide, by decide⟩
  · subst hs
    exact ⟨by decide, by decide, by decide, by decide, by decide⟩
  · subst hs
    exact ⟨by decide, by decide, by decide, by decide, by decide⟩
  · subst hs
    exact ⟨by decide, by decide, by decide, by decide, by decide⟩

theorem queryOf_cases (qs : Str) (kqp : Option (List Str)) :
    queryOf qs kqp = [] ∨ ∃ P : List (Str × Str), queryOf qs kqp = urlencode P := by
  unfold queryOf
  cases kqp with
  | none => exact Or.inl rfl
  | some keeps =>
      simp only []
      split_ifs with h1 h2
      · exact Or.inl rfl
      · exact Or.inr ⟨_, rfl⟩
      · exact Or.inl rfl

theorem noDupSlash_take2 {p : Str} (h : NoDupSlash p) : ¬ p.take 2 = ['/', '/'] := by
  intro ht
  cases p with
  | nil => simp at ht
  | cons a t =>
      cases t with
      | nil => simp at ht
      | cons b t2 =>
          have ht2 : ([a, b] : Str) = ['/', '/'] := ht
          rw [List.cons.injEq, List.cons.injEq] at ht2
          exact (List.chain'_cons.mp h).1 ⟨ht2.1, ht2.2.1⟩

theorem unsafePred_of_toNat {c : Char} (h9 : ¬ c.toNat = 9) (h13 : ¬ c.toNat = 13)
    (h10 : ¬ c.toNat = 10) :
    (c != Char.ofNat 9 && c != Char.ofNat 13 && c != Char.ofNat 10) = true := by
  simp only [Bool.and_eq_true, bne_iff_ne, ne_eq]
  refine ⟨⟨?_, ?_⟩, ?_⟩
  · intro he
    exact h9 (by rw [he]; rfl)
  · intro he
    exact h13 (by rw [he]; rfl)
  · intro he
    exact h10 (by rw [he]; rfl)

/-- Splitting the URL reassembled from normalized components recovers them
exactly (the path gains a leading `/` when it lacks one, fragment empty). -/
theorem urlsplit_norm (n p0 q : Str)
    (hn : ∀ c ∈ n, isNetlocDelim c = false ∧
      ¬ c.toNat = 9 ∧ ¬ c.toNat = 13 ∧ ¬ c.toNat = 10)
    (hp : ∀ c ∈ p0, (¬ c = '?' ∧ ¬ c = '#') ∧
      ¬ c.toNat = 9 ∧ ¬ c.toNat = 13 ∧ ¬ c.toNat = 10)
    (hq : q = [] ∨ ∃ P : List (Str × Str), q = urlencode P)
    (hp0ne : p0 ≠ []) (hnds : NoDupSlash p0) :
    urlsplit (urlunparse (r"https").toList n p0 [] q []) =
      ⟨(r"https").toList, n, (if p0.take 1 = ['/'] then p0 else '/' :: p0), q, []⟩ := by
  obtain ⟨t, hp2, htsub⟩ : ∃ t : Str,
      (if p0.take 1 = ['/'] then p0 else '/' :: p0) = '/' :: t ∧
        ∀ c ∈ t, c ∈ p0 := by
    cases p0 with
    | nil => exact absurd rfl hp0ne
    | cons a t0 =>
        by_cases ha : a = '/'
        · subst ha
          rw [if_pos (show List.take 1 ('/' :: t0) = ['/'] from rfl)]
          exact ⟨t0, rfl, fun c hc => List.mem_cons_of_mem _ hc⟩
        · have htake : (a :: t0).take 1 = [a] := rfl
          rw [if_neg (by rw [htake]; simp [ha])]
          exact ⟨a :: t0, rfl, fun c hc => hc⟩
  have hinner : (if p0 ≠ [] ∧ p0.take 1 ≠ ['/'] then '/' :: p0 else p0)
      = '/' :: t := by
    rw [← hp2]
    by_cases htk : p0.take 1 = ['/']
    · rw [if_neg (fun hcon => hcon.2 htk), if_pos htk]
    · rw [if_pos ⟨hp0ne, htk⟩, if_neg htk]
  have hv : urlunparse (r"https").toList n p0 [] q [] =
      'h':: 't':: 't':: 'p':: 's':: ':':: '/':: '/'::
        (n ++ '/' :: (t ++ (if q ≠ [] then '?' :: q else []))) := by
    have hfalse : ¬ (([] : Str) ≠ []) := by simp
    have hcondP : n ≠ [] ∨ ((r"https").toList ≠ [] ∧
        (r"https").toList ∈ uses_netloc ∧ p0.take 2 ≠ ['/', '/']) := by
      by_cases hn0 : n ≠ []
      · exact Or.inl hn0
      · exact Or.inr ⟨by decide, by decide, noDupSlash_take2 hnds⟩
    unfold urlunparse urlunsplit
    simp only []
    rw [if_neg hfalse]
    rw [if_pos (by decide : ((r"https").toList : Str) ≠ [])]
    rw [if_neg hfalse]
    rw [if_pos hcondP]
    rw [hinner]
    rw [show (r"https").toList = ['h', 't', 't', 'p', 's'] from rfl]
    by_cases hq0 : q ≠ []
    · rw [if_pos hq0, if_pos hq0]
      simp [List.append_assoc]
    · rw [if_neg hq0, if_neg hq0]
      simp [List.append_assoc]
  have hscheme : ∀ rest : Str, splitScheme ('h':: 't':: 't':: 'p':: 's':: ':'::rest)
      = ((r"https").toList, rest) := by
    intro rest
    unfold splitScheme
    rw [show List.findIdx? (fun c => c == ':') ('h':: 't':: 't':: 'p':: 's':: ':'::rest)
        = some 5 from by simp [List.findIdx?_cons]]
    simp only []
    rw [if_pos ⟨by omega,
      (by decide : (List.all ['h'] isAsciiAlpha) = true),
      (by decide : (List.all ['h','t','t','p','s'] isSchemeChar) = true)⟩]
    rw [Prod.mk.injEq]
    exact ⟨(by decide : pyLower ['h','t','t','p','s'] = (r"https").toList), rfl⟩
  have hclean : removeUnsafe (lstripC0 ('h':: 't':: 't':: 'p':: 's':: ':':: '/':: '/'::
      (n ++ '/' :: (t ++ (if q ≠ [] then '?' :: q else []))))) =
      'h':: 't':: 't':: 'p':: 's':: ':':: '/':: '/'::
      (n ++ '/' :: (t ++ (if q ≠ [] then '?' :: q else []))) := by
    rw [lstripC0, List.dropWhile_cons, if_neg (by decide)]
    rw [removeUnsafe]
    apply List.filter_eq_self.mpr
    intro c hc
    simp only [List.mem_cons] at hc
    rcases hc with rfl | rfl | rfl | rfl | rfl | rfl | rfl | rfl | hc
    · decide
    · decide
    · decide
    · decide
    · decide
    · decide
    · decide
    · decide
    · rcases List.mem_append.mp hc with hc | hc
      · exact unsafePred_of_toNat (hn c hc).2.1 (hn c hc).2.2.1 (hn c hc).2.2.2
      · rcases List.mem_cons.mp hc with rfl | hc
        · decide
        · rcases List.mem_append.mp hc with hc | hc
          · exact unsafePred_of_toNat (hp c (htsub c hc)).2.1
              (hp c (htsub c hc)).2.2.1 (hp c (htsub c hc)).2.2.2
          · split_ifs at hc with hq0
            · rcases List.mem_cons.mp hc with rfl | hc
              · decide
              · rcases hq with rfl | ⟨P, rfl⟩
                · exact absurd hc (List.not_mem_nil c)
                · have h5 := urlencode_char_props hc
                  exact unsafePred_of_toNat h5.2.2.1 h5.2.2.2.1 h5.2.2.2.2
            · exact absurd hc (List.not_mem_nil c)
  have hnet : splitNetloc ('/':: '/'::
      (n ++ '/' :: (t ++ (if q ≠ [] then '?' :: q else [])))) =
      (n, '/' :: (t ++ (if q ≠ [] then '?' :: q else []))) := by
    unfold splitNetloc
    rw [Prod.mk.injEq]
    constructor
    · show (n ++ '/' :: _).takeWhile _ = n
      rw [takeWhile_append_of_all _ n _ (fun c hc => by rw [(hn c hc).1]; rfl),
        List.takeWhile_cons, if_neg (by decide), List.append_nil]
    · show (n ++ '/' :: _).dropWhile _ = _
      rw [dropWhile_append_of_all _ n _ (fun c hc => by rw [(hn c hc).1]; rfl),
        List.dropWhile_cons, if_neg (by decide)]
  have hnohash : ¬ '#' ∈ ('/' : Char) ::
      (t ++ (if q ≠ [] then '?' :: q else [])) := by
    intro hmem
    rcases List.mem_cons.mp hmem with he | hmem2
    · exact absurd he (by decide)
    · rcases List.mem_append.mp hmem2 with hc | hc
      · exact (hp '#' (htsub '#' hc)).1.2 rfl
      · split_ifs at hc with hq0
        · rcases List.mem_cons.mp hc with he | hc
          · exact absurd he (by decide)
          · rcases hq with rfl | ⟨P, rfl⟩
            · exact absurd hc (List.not_mem_nil _)
            · exact (urlencode_char_props hc).1 rfl
        · exact absurd hc (List.not_mem_nil _)
  rw [hp2, hv]
  unfold urlsplit
  simp only []
  rw [hclean, hscheme]
  simp only []
  rw [if_pos (by rfl : List.take 2 ('/':: '/'::
    (n ++ '/' :: (t ++ (if q ≠ [] then '?' :: q else [])))) = ['/', '/'])]
  rw [hnet]
  simp only []
  rw [if_neg hnohash]
  simp only []
  by_cases hq0 : q ≠ []
  · rw [if_pos hq0]
    rw [if_pos (show '?' ∈ ('/' : Char) :: (t ++ '?' :: q) from
      List.mem_cons_of_mem _ (List.mem_append.mpr
        (Or.inr (List.mem_cons_self '?' q))))]
    rw [show splitOnce '?' ('/' :: (t ++ '?' :: q)) = ('/' :: t, q) from by
      unfold splitOnce
      rw [Prod.mk.injEq]
      constructor
      · rw [List.takeWhile_cons, if_pos (by decide),
          takeWhile_append_of_all _ t _ (fun c hc => by
            have h2 := (hp c (htsub c hc)).1.1
            simpa using h2),
          List.takeWhile_cons, if_neg (by decide), List.append_nil]
      · rw [List.dropWhile_cons, if_pos (by decide),
          dropWhile_append_of_all _ t _ (fun c hc => by
            have h2 := (hp c (htsub c hc)).1.1
            simpa using h2),
          List.dropWhile_cons, if_neg (by decide)]
        rfl]
  · rw [if_neg hq0]
    have hqe : q = [] := by
      by_contra hcon
      exact hq0 hcon
    subst hqe
    rw [List.append_nil]
    rw [if_neg (show ¬ '?' ∈ ('/' : Char) :: t from by
      intro hmem
      rcases List.mem_cons.mp hmem with he | hc
      · exact absurd he (by decide)
      · exact (hp '?' (htsub '?' hc)).1.1 rfl)]

/-- The reassembled URL, written out as a flat list. -/
theorem urlunparse_norm (n p0 q : Str) (hp0ne : p0 ≠ []) (hnds : NoDupSlash p0) :
    urlunparse (r"https").toList n p0 [] q [] =
      'h':: 't':: 't':: 'p':: 's':: ':':: '/':: '/'::
        (n ++ ((if p0.take 1 = ['/'] then p0 else '/' :: p0) ++
          (if q ≠ [] then '?' :: q else []))) := by
  have hinner : (if p0 ≠ [] ∧ p0.take 1 ≠ ['/'] then '/' :: p0 else p0)
      = (if p0.take 1 = ['/'] then p0 else '/' :: p0) := by
    by_cases htk : p0.take 1 = ['/']
    · rw [if_neg (fun hcon => hcon.2 htk), if_pos htk]
    · rw [if_pos ⟨hp0ne, htk⟩, if_neg htk]
  have hfalse : ¬ (([] : Str) ≠ []) := by simp
  have hcondP : n ≠ [] ∨ ((r"https").toList ≠ [] ∧
      (r"https").toList ∈ uses_netloc ∧ p0.take 2 ≠ ['/', '/']) := by
    by_cases hn0 : n ≠ []
    · exact Or.inl hn0
    · exact Or.inr ⟨by decide, by decide, noDupSlash_take2 hnds⟩
  unfold urlunparse urlunsplit
  simp only []
  rw [if_neg hfalse]
  rw [if_pos (by decide : ((r"https").toList : Str) ≠ [])]
  rw [if_neg hfalse]
  rw [if_pos hcondP]
  rw [hinner]
  rw [show (r"https").toList = ['h', 't', 't', 'p', 's'] from rfl]
  by_cases hq0 : q ≠ []
  · rw [if_pos hq0, if_pos hq0]
    simp [List.append_assoc]
  · rw [if_neg hq0, if_neg hq0]
    simp [List.append_assoc]

theorem p2_ne_nil (p0 : Str) (hp0ne : p0 ≠ []) :
    (if p0.take 1 = ['/'] then p0 else '/' :: p0) ≠ [] := by
  split_ifs
  · exact hp0ne
  · simp

theorem p2_take1 (p0 : Str) :
    (if p0.take 1 = ['/'] then p0 else '/' :: p0).take 1 = ['/'] := by
  split_ifs with htk
  · exact htk
  · rfl

theorem p2_noDupSlash (p0 : Str) (hp0ne : p0 ≠ []) (hnds : NoDupSlash p0) :
    NoDupSlash (if p0.take 1 = ['/'] then p0 else '/' :: p0) := by
  split_ifs with htk
  · exact hnds
  · cases p0 with
    | nil => exact absurd rfl hp0ne
    | cons a t0 =>
        rw [NoDupSlash, List.chain'_cons]
        refine ⟨fun hpair => htk ?_, hnds⟩
        rw [show List.take 1 (a :: t0) = [a] from rfl, hpair.2]

theorem p2_getLast (p0 : Str) (hp0ne : p0 ≠ [])
    (hlast : p0 = ['/'] ∨ ¬ p0.getLast? = some '/') :
    (if p0.take 1 = ['/'] then p0 else '/' :: p0) = ['/'] ∨
      ¬ (if p0.take 1 = ['/'] then p0 else '/' :: p0).getLast? = some '/' := by
  split_ifs with htk
  · exact hlast
  · rcases hlast with rfl | hl
    · exact absurd rfl htk
    · right
      cases p0 with
      | nil => exact absurd rfl hp0ne
      | cons a t0 =>
          rw [List.getLast?_cons_cons]
          exact hl

/-- Re-unparsing with the slash-adjusted path gives the same URL. -/
theorem urlunparse_stable (n p0 q : Str) (hp0ne : p0 ≠ []) (hnds : NoDupSlash p0) :
    urlunparse (r"https").toList n
        (if p0.take 1 = ['/'] then p0 else '/' :: p0) [] q []
      = urlunparse (r"https").toList n p0 [] q [] := by
  rw [urlunparse_norm n (if p0.take 1 = ['/'] then p0 else '/' :: p0) q
      (p2_ne_nil p0 hp0ne) (p2_noDupSlash p0 hp0ne hnds),
    urlunparse_norm n p0 q hp0ne hnds]
  rw [if_pos (p2_take1 p0)]

/-- C9 (counterexample): `normalize_url` is not idempotent.  The scheme
`foo` is not in `uses_params`, so the first pass keeps `;p` in the path;
the forced `https` scheme of the result is in `uses_params`, so the second
pass strips `;p`. -/
theorem C9_counterexample :
    ¬ normalize_url (normalize_url (r"foo://x/a;p").toList none) none
      = normalize_url (r"foo://x/a;p").toList none := by decide

/-- C9 (amended): `normalize_url` is idempotent on every URL whose
normalized form has no `;` in the last path segment (no `params` part);
in particular every normalized URL whose path `_splitparams` leaves whole
is a fixed point. -/
theorem C9_amended (u : Str) (kqp : Option (List Str))
    (h : splitparams ((urlsplit (normalize_url u kqp)).path)
        = ((urlsplit (normalize_url u kqp)).path, [])) :
    normalize_url (normalize_url u kqp) kqp = normalize_url u kqp := by
  have hn := normNetloc_spec u
  have hpc := normPath_chars u
  obtain ⟨hp0ne, hnds, hlast⟩ := normPath_spec u
  have hqc := queryOf_cases (urlparse u).query kqp
  set n := pyLower (urlparse u).netloc with hndef
  set p0 := normPath u with hp0def
  set q := queryOf (urlparse u).query kqp with hqdef
  have hveq : normalize_url u kqp = urlunparse (r"https").toList n p0 [] q [] :=
    normalize_url_eq u kqp
  set p2 := if p0.take 1 = ['/'] then p0 else '/' :: p0 with hp2def
  have hp2ne := p2_ne_nil p0 hp0ne
  have hnds2 := p2_noDupSlash p0 hp0ne hnds
  have hsplit : urlsplit (normalize_url u kqp)
      = ⟨(r"https").toList, n, p2, q, []⟩ := by
    rw [hveq, hp2def]
    exact urlsplit_norm n p0 q hn hpc hqc hp0ne hnds
  have hparam : splitparams p2 = (p2, []) := by
    have h2 := h
    rw [hsplit] at h2
    exact h2
  have hup : urlparse (normalize_url u kqp)
      = ⟨(r"https").toList, n, p2, [], q, []⟩ := by
    unfold urlparse
    rw [hsplit]
    simp only []
    split_ifs with hcsemi
    · rw [hparam]
    · rfl
  have hpathv : normPath (normalize_url u kqp) = p2 := by
    unfold normPath
    rw [hup]
    simp only []
    rw [if_neg hp2ne]
    rw [collapseSlashes_of_noDupSlash p2 hnds2]
    rw [if_neg ?nstrip]
    case nstrip =>
      rcases p2_getLast p0 hp0ne hlast with he | hl
      · exact fun hcon => hcon.1 he
      · exact fun hcon => hl hcon.2
  have hqv : queryOf (urlparse (normalize_url u kqp)).query kqp = q := by
    rw [hup]
    simp only []
    rw [hqdef]
    exact queryOf_stable (urlparse u).query kqp
  have hnv : pyLower (urlparse (normalize_url u kqp)).netloc = n := by
    rw [hup]
    simp only []
    rw [hndef]
    exact pyLower_idem _
  rw [normalize_url_eq (normalize_url u kqp) kqp, hnv, hpathv, hqv]
  rw [hveq, hp2def]
  exact urlunparse_stable n p0 q hp0ne hnds

theorem C9_amended_witness :
    splitparams ((urlsplit (normalize_url
        (r"https://www.TikTok.com//community-guidelines/en/?lang=en&x=1").toList
        (some [(r"lang").toList]))).path)
      = ((urlsplit (normalize_url
        (r"https://www.TikTok.com//community-guidelines/en/?lang=en&x=1").toList
        (some [(r"lang").toList]))).path, []) ∧
    normalize_url (normalize_url
        (r"https://www.TikTok.com//community-guidelines/en/?lang=en&x=1").toList
        (some [(r"lang").toList])) (some [(r"lang").toList])
      = normalize_url
        (r"https://www.TikTok.com//community-guidelines/en/?lang=en&x=1").toList
        (some [(r"lang").toList]) :=
  ⟨by decide, C9_amended
    (r"https://www.TikTok.com//community-guidelines/en/?lang=en&x=1").toList
    (some [(r"lang").toList]) (by decide)⟩

end TiktokRag
